import Mathlib

/-!
# Verification of the alias-runner indexing engine

A shallow embedding, in Lean 4, of the core of `alias_runner.py`: the
recursive include traversal (`collect_aliases`), the line parser
(`parse_aliases_from_file`, with the `ALIAS_RE` / `SOURCE_RE` shapes
implemented as bespoke matchers with Python `re` backtracking semantics),
the last-wins merge, the annotation overlay (`load_notes` / `save_notes`),
the search scoring (`tokens`, `match_score`, `filter_aliases`) and the
application-state accessors (`AppState`).

Modelling conventions:
* strings carry ASCII data; Python's `str.lower`, `str.strip`, `str.split`
  are modelled on ASCII characters;
* the file system is a finite map from canonical POSIX paths to file
  contents (a file's text is its `splitlines()` result), plus a list of
  canonical directory paths; there are no symbolic links in the model;
* `pathlib.Path` values are modelled as the strings produced by pathlib's
  constructor normalisation (spurious slashes and single dots collapsed,
  `..` kept); `Path.resolve()` is modelled as lexical canonicalisation
  (`..` elimination), faithful to an OS without symbolic links;
* `Path.glob` is an external OS facility; it is modelled as enumerating
  the (canonical) file-system entries lying under the base directory whose
  relative components match the pattern, with fnmatch component semantics;
* JSON persistence of the annotation store is modelled as an identity
  round-trip (the spec's external-interface contract for the store).
-/

/-! ## Python character and string primitives -/

/-- Python `str` whitespace for ASCII: space, tab, newline, CR, VT, FF. -/
def pySpace (c : Char) : Bool :=
  c = ' ' ∨ c = '\t' ∨ c = '\n' ∨ c = '\x0d' ∨ c = '\x0b' ∨ c = '\x0c'

/-- Python `str.lower`, ASCII fragment (`Char.toLower` lowers `A`–`Z`). -/
def pyLower (s : String) : String :=
  (s.toList.map Char.toLower).asString

/-- Python `str.strip()` with no argument: trim whitespace on both ends. -/
def pyStrip (s : String) : String :=
  ((((s.toList.dropWhile pySpace).reverse).dropWhile pySpace).reverse).asString

/-- Python `str.lstrip("#")`: drop all leading `#` characters. -/
def lstripHash (s : String) : String :=
  (s.toList.dropWhile (fun c => c = '#')).asString

/-- Model of `s.startswith(t)` at character level. -/
def strHasLead (s t : String) : Bool :=
  t.toList.isPrefixOf s.toList

theorem dropWhile_len_le {α : Type*} (p : α → Bool) (l : List α) :
    (l.dropWhile p).length ≤ l.length := by
  induction l with
  | nil => simp [List.dropWhile]
  | cons c rest ih =>
    rw [List.dropWhile]
    cases hp : p c
    · simp
    · simpa using Nat.le_succ_of_le ih

/-- Python's `t in hay` substring test, at character level. -/
def subAux (t : List Char) : List Char → Bool
  | [] => t.isPrefixOf []
  | c :: rest => t.isPrefixOf (c :: rest) || subAux t rest

/-- Python's `t in hay` on strings. -/
def strHasSub (hay t : String) : Bool :=
  subAux t.toList hay.toList

/-- Worker for `pySplit`: `cur` is the reversed current word. -/
def pySplitAux : List Char → List Char → List String
  | cur, [] => if cur.isEmpty then [] else [cur.reverse.asString]
  | cur, c :: rest =>
    if pySpace c then
      if cur.isEmpty then pySplitAux [] rest
      else cur.reverse.asString :: pySplitAux [] rest
    else pySplitAux (c :: cur) rest

/-- Python `str.split()` with no argument: split on whitespace runs,
dropping empty pieces. -/
def pySplit (s : String) : List String :=
  pySplitAux [] s.toList

/-! ## A stable sort (Python's `list.sort` / `sorted` are stable)

A stable sort's output is uniquely determined by the comparator, so stable
insertion sort is extensionally equal to Python's Timsort. -/

section StableSort

variable {α : Type*} {β : Type*}

/-- Insert `x` into `l`, placing it before the first element strictly
greater than it; elements comparing equal keep `x` after them
(stability for an `x` arriving later). -/
def sInsert (le : α → α → Bool) (x : α) : List α → List α
  | [] => [x]
  | y :: ys => if le x y ∧ ¬ le y x then x :: y :: ys else y :: sInsert le x ys

/-- Stable insertion sort with a boolean comparator. -/
def stableSortBy (le : α → α → Bool) (l : List α) : List α :=
  l.foldl (fun acc x => sInsert le x acc) []

theorem sInsert_perm (le : α → α → Bool) (x : α) (l : List α) :
    (sInsert le x l).Perm (x :: l) := by
  induction l with
  | nil => simp [sInsert]
  | cons y ys ih =>
    rw [sInsert]
    by_cases h : le x y ∧ ¬ le y x
    · rw [if_pos h]
    · rw [if_neg h]
      exact (ih.cons y).trans (List.Perm.swap x y ys)

theorem stableSortBy_perm (le : α → α → Bool) (l : List α) :
    (stableSortBy le l).Perm l := by
  induction l using List.reverseRecOn with
  | nil => rfl
  | append_singleton l x ih =>
    unfold stableSortBy at *
    rw [List.foldl_append]
    simp only [List.foldl]
    exact ((sInsert_perm le x _).trans (ih.cons x)).trans
      (List.perm_append_singleton x l).symm

theorem sInsert_sorted (le : α → α → Bool)
    (htot : ∀ a b, le a b ∨ le b a)
    (htrans : ∀ a b c, le a b → le b c → le a c)
    (x : α) (l : List α) (h : l.Sorted (fun a b => le a b = true)) :
    (sInsert le x l).Sorted (fun a b => le a b = true) := by
  induction l with
  | nil => simp [sInsert]
  | cons y ys ih =>
    rw [sInsert]
    rcases List.sorted_cons.mp h with ⟨hy, hys⟩
    by_cases hc : le x y ∧ ¬ le y x
    · rw [if_pos hc]
      refine List.sorted_cons.mpr ⟨?_, h⟩
      intro b hb
      rcases List.mem_cons.mp hb with rfl | hb
      · exact hc.1
      · exact htrans _ _ _ hc.1 (hy b hb)
    · rw [if_neg hc]
      refine List.sorted_cons.mpr ⟨?_, ih hys⟩
      have hyx : le y x := by
        rcases htot x y with hxy | hyx
        · by_cases hyx : le y x
          · exact hyx
          · exact absurd ⟨hxy, hyx⟩ hc
        · exact hyx
      intro b hb
      have hm := (sInsert_perm le x ys).mem_iff.mp hb
      rcases List.mem_cons.mp hm with rfl | hm
      · exact hyx
      · exact hy b hm

theorem stableSortBy_sorted (le : α → α → Bool)
    (htot : ∀ a b, le a b ∨ le b a)
    (htrans : ∀ a b c, le a b → le b c → le a c)
    (l : List α) :
    (stableSortBy le l).Sorted (fun a b => le a b = true) := by
  induction l using List.reverseRecOn with
  | nil => simp [stableSortBy]
  | append_singleton l x ih =>
    unfold stableSortBy at *
    rw [List.foldl_append]
    simp only [List.foldl]
    exact sInsert_sorted le htot htrans x _ ih

theorem sInsert_map (le₁ : α → α → Bool) (le₂ : β → β → Bool) (f : α → β)
    (hle : ∀ a b, le₂ (f a) (f b) = le₁ a b) (x : α) (l : List α) :
    sInsert le₂ (f x) (l.map f) = (sInsert le₁ x l).map f := by
  induction l with
  | nil => simp [sInsert]
  | cons y ys ih =>
    simp only [List.map_cons, sInsert, hle]
    by_cases h : le₁ x y ∧ ¬ le₁ y x
    · rw [if_pos h, if_pos h]; rfl
    · rw [if_neg h, if_neg h, List.map_cons, ih]

theorem stableSortBy_map (le₁ : α → α → Bool) (le₂ : β → β → Bool) (f : α → β)
    (hle : ∀ a b, le₂ (f a) (f b) = le₁ a b) (l : List α) :
    stableSortBy le₂ (l.map f) = (stableSortBy le₁ l).map f := by
  induction l using List.reverseRecOn with
  | nil => rfl
  | append_singleton l x ih =>
    unfold stableSortBy at *
    rw [List.map_append, List.foldl_append, List.foldl_append]
    simp only [List.map, List.foldl]
    rw [ih, sInsert_map le₁ le₂ f hle]

end StableSort

/-! ## POSIX path model

`pathlib.PurePath` construction collapses spurious slashes and single-dot
components but keeps `..`; `Path.resolve()` additionally eliminates `..`
(lexically, since the model has no symbolic links). -/

/-- Split a character list at `/` (keeping empty pieces). -/
def splitSlash : List Char → List (List Char)
  | [] => [[]]
  | c :: rest =>
    if c = '/' then [] :: splitSlash rest
    else
      match splitSlash rest with
      | [] => [[c]]
      | s :: ss => (c :: s) :: ss

/-- Is the path absolute (leading slash)? -/
def isAbsStr (p : String) : Bool :=
  strHasLead p "/"

/-- The path's components after pathlib constructor normalisation: empty
pieces and `.` dropped, `..` kept. -/
def goodComps (p : String) : List String :=
  ((splitSlash p.toList).map List.asString).filter (fun c => c ≠ "" ∧ c ≠ ".")

/-- Join components with `/`. -/
def joinSlash : List String → String
  | [] => ""
  | [c] => c
  | c :: rest => c ++ "/" ++ joinSlash rest

/-- Render an (absolute?, components) pair back to pathlib's string form. -/
def renderComps (abs : Bool) (cs : List String) : String :=
  if cs.isEmpty then (if abs then "/" else ".")
  else (if abs then "/" else "") ++ joinSlash cs

/-- Model of `str(pathlib.Path(p))`: constructor normalisation only. -/
def pathNorm (p : String) : String :=
  renderComps (isAbsStr p) (goodComps p)

/-- One step of lexical `..` elimination over a reversed component stack. -/
def dotStep (abs : Bool) (st : List String) (c : String) : List String :=
  if c = ".." then
    match st with
    | [] => if abs then [] else [".."]
    | h :: t => if abs then t else (if h = ".." then c :: h :: t else t)
  else c :: st

/-- Eliminate `..` components (POSIX lexical resolution, no symlinks). -/
def procDots (abs : Bool) (cs : List String) : List String :=
  (cs.foldl (dotStep abs) []).reverse

/-- Model of `Path.resolve()` in a symlink-free world: full lexical
canonicalisation. -/
def canon (p : String) : String :=
  renderComps (isAbsStr p) (procDots (isAbsStr p) (goodComps p))

/-- Model of `Path.parent`: drop the last normalised component. -/
def parentStr (p : String) : String :=
  renderComps (isAbsStr p) (goodComps p).dropLast

/-- Model of `base / p` (pathlib `/` operator). -/
def joinPath (base p : String) : String :=
  if isAbsStr p then pathNorm p
  else renderComps (isAbsStr base) (goodComps base ++ goodComps p)

/-- Model of `Path.suffix`: the final component's last extension. -/
def suffixStr (p : String) : String :=
  match (goodComps p).getLast? with
  | none => ""
  | some nm =>
    let l := nm.toList
    let revTail := l.reverse.takeWhile (fun c => c ≠ '.')
    if revTail.length = l.length then ""
    else
      let i := l.length - revTail.length - 1
      if 0 < i ∧ i < l.length - 1 then (l.drop i).asString else ""

/-- Model of `os.path.dirname` (posixpath semantics). -/
def dirnameStr (p : String) : String :=
  let l := p.toList
  let revAfter := l.reverse.takeWhile (fun c => c ≠ '/')
  if revAfter.length = l.length then ""
  else
    let head := l.take (l.length - revAfter.length)
    if head.isEmpty ∨ head.all (fun c => c = '/') then head.asString
    else ((head.reverse.dropWhile (fun c => c = '/')).reverse).asString

/-- Model of `os.path.basename` (posixpath semantics). -/
def basenameStr (p : String) : String :=
  ((p.toList.reverse.takeWhile (fun c => c ≠ '/')).reverse).asString

/-- Python 3.12+ `Path` ordering: string comparison of the normalised
form (POSIX `_str_normcase`). -/
def pathLe (p q : String) : Bool :=
  decide (p ≤ q)

/-! ## The file-system and environment model -/

/-- One parsed alias record (the dict built at line 116 of the source). -/
structure AliasRecord where
  name : String
  body : String
  note : String
  file : String
  line : Nat
deriving Repr, DecidableEq

/-- A finite POSIX file system: regular files (with their `splitlines()`
text) and directories, all stored under canonical paths. -/
structure FS where
  files : List (String × List String)
  dirs : List String
deriving Repr

/-- Process environment: variables and the home directory. -/
structure Env where
  vars : List (String × String)
  home : String
deriving Repr

/-- Every canonical entry path of the file system. -/
def allPathsC (fs : FS) : List String :=
  fs.files.map (fun e => canon e.1) ++ fs.dirs.map canon

/-- Model of `Path.is_file()`: the canonical form names a stored regular file. -/
def isFileFS (fs : FS) (p : String) : Bool :=
  (fs.files.map (fun e => canon e.1)).contains (canon p)

/-- Model of `Path.is_dir()`. -/
def isDirFS (fs : FS) (p : String) : Bool :=
  (fs.dirs.map canon).contains (canon p)

/-- Model of `Path.exists()`. -/
def existsFS (fs : FS) (p : String) : Bool :=
  isFileFS fs p || isDirFS fs p

/-- Model of `Path.read_text(...).splitlines()` for a stored file. -/
def contentOf (fs : FS) (p : String) : Option (List String) :=
  (fs.files.find? (fun e => canon e.1 == canon p)).map (fun e => e.2)

/-- Model of `os.environ.get(k, d)`. -/
def envGet (env : Env) (k d : String) : String :=
  ((env.vars.find? (fun e => e.1 == k)).map (fun e => e.2)).getD d

/-- Model of `os.path.expanduser`: a leading `~` (alone or before `/`) becomes the
home directory; `~user` forms are left unchanged (no user database in the
model). -/
def expanduser (env : Env) (p : String) : String :=
  if p = "~" then env.home
  else if strHasLead p "~/" then env.home ++ (p.toList.drop 1).asString
  else p

/-- Model of `\w` for `os.path.expandvars` variable names (ASCII fragment). -/
def isVarChar (c : Char) : Bool :=
  c.isAlphanum || c = '_'

/-- Model of `(env.vars)[k]` lookup. -/
def envLookup (env : Env) (k : String) : Option String :=
  (env.vars.find? (fun e => e.1 == k)).map (fun e => e.2)

/-- Scan a maximal run of variable-name characters. -/
def scanVar : List Char → (List Char × List Char)
  | [] => ([], [])
  | c :: rest =>
    if isVarChar c then
      let p := scanVar rest
      (c :: p.1, p.2)
    else ([], c :: rest)

theorem scanVar_len : ∀ l : List Char, (scanVar l).2.length ≤ l.length := by
  intro l
  induction l with
  | nil => simp [scanVar]
  | cons c rest ih =>
    rw [scanVar]
    by_cases h : isVarChar c
    · rw [if_pos h]; simpa using Nat.le_succ_of_le ih
    · rw [if_neg h]

/-- Scan up to a closing `}`: `some (name, rest-after-brace)`. -/
def scanBrace : List Char → Option (List Char × List Char)
  | [] => none
  | c :: rest =>
    if c = '}' then some ([], rest)
    else (scanBrace rest).map (fun p => (c :: p.1, p.2))

theorem scanBrace_len :
    ∀ (l : List Char) (nm r : List Char),
      scanBrace l = some (nm, r) → r.length < l.length := by
  intro l
  induction l with
  | nil => intro nm r h; simp [scanBrace] at h
  | cons c rest ih =>
    intro nm r h
    rw [scanBrace] at h
    by_cases hc : c = '}'
    · rw [if_pos hc] at h
      cases h
      simp
    · rw [if_neg hc] at h
      rcases Option.map_eq_some'.mp h with ⟨p, hp, he⟩
      cases he
      exact Nat.lt_succ_of_lt (ih p.1 p.2 (by simpa using hp))

/-- Model of `os.path.expandvars` worker: `$name` and `${name}` expanded,
unknown names and malformed references left as written, replacements not
rescanned.  Structurally recursive on a fuel argument so that the kernel
can evaluate it; every step consumes at least one character, so fuel equal
to the input length (as supplied by `expandvars`) never runs out. -/
def expandVarsAux (env : Env) : ℕ → List Char → List Char
  | 0, l => l
  | _ + 1, [] => []
  | fuel + 1, c :: rest =>
    if c ≠ '$' then c :: expandVarsAux env fuel rest
    else
      match rest with
      | [] => ['$']
      | d :: r2 =>
        if d = '{' then
          match scanBrace r2 with
          | none => '$' :: expandVarsAux env fuel (d :: r2)
          | some (nm, r3) =>
            match envLookup env nm.asString with
            | some v => v.toList ++ expandVarsAux env fuel r3
            | none => '$' :: '{' :: (nm ++ '}' :: expandVarsAux env fuel r3)
        else if isVarChar d then
          match scanVar (d :: r2) with
          | (nm, r3) =>
            match envLookup env nm.asString with
            | some v => v.toList ++ expandVarsAux env fuel r3
            | none => '$' :: (nm ++ expandVarsAux env fuel r3)
        else '$' :: expandVarsAux env fuel (d :: r2)

/-- Model of `os.path.expandvars`. -/
def expandvars (env : Env) (p : String) : String :=
  (expandVarsAux env p.toList.length p.toList).asString

/-- Model of `expand_path` (source lines 54–59): expand `~` and `$VAR`; an absolute
result is kept as constructed, a relative one is resolved against
`base_dir`. -/
def expand_path (env : Env) (p : String) (base_dir : String) : String :=
  let p1 := expandvars env (expanduser env p)
  if isAbsStr p1 then pathNorm p1
  else canon (joinPath base_dir p1)

/-! ## Glob matching (`fnmatch` component semantics plus `**`) -/

/-- Model of `s.__contains__` of a glob metacharacter, the check at line 83. -/
def hasGlobChar (s : String) : Bool :=
  s.toList.any (fun c => c = '*' ∨ c = '?' ∨ c = '[')

/-- Parse a bracket class after `[`: optional `!`, a first (always
literal) content character, then content up to `]`.  `none` when there is
no closing bracket (fnmatch then treats `[` literally). -/
def classParse (l : List Char) : Option (Bool × List Char × List Char) :=
  let neg := l.head? = some '!'
  let l1 := if neg then l.tail else l
  match l1 with
  | [] => none
  | c :: r =>
    let content := r.takeWhile (fun ch => ch ≠ ']')
    match r.dropWhile (fun ch => ch ≠ ']') with
    | [] => none
    | _ :: r2 => some (neg, c :: content, r2)

theorem classParse_len (l : List Char) (neg : Bool) (co rest : List Char)
    (h : classParse l = some (neg, co, rest)) : rest.length < l.length := by
  unfold classParse at h
  by_cases hn : l.head? = some '!'
  · simp only [hn, if_pos] at h
    cases l with
    | nil => simp at hn
    | cons a t =>
      simp only [List.tail_cons] at h
      cases t with
      | nil => simp at h
      | cons c r =>
        simp only at h
        rcases hr : r.dropWhile (fun ch => ch ≠ ']') with _ | ⟨x, r2⟩
        · rw [hr] at h; simp at h
        · rw [hr] at h
          cases h
          have h1 : (r.dropWhile (fun ch => ch ≠ ']')).length ≤ r.length :=
            dropWhile_len_le _ _
          rw [hr] at h1
          simp only [List.length_cons] at h1 ⊢
          omega
  · simp only [hn, if_neg, if_false] at h
    cases l with
    | nil => simp at h
    | cons c r =>
      simp only at h
      rcases hr : r.dropWhile (fun ch => ch ≠ ']') with _ | ⟨x, r2⟩
      · rw [hr] at h; simp at h
      · rw [hr] at h
        cases h
        have h1 : (r.dropWhile (fun ch => ch ≠ ']')).length ≤ r.length :=
          dropWhile_len_le _ _
        rw [hr] at h1
        simp only [List.length_cons] at h1 ⊢
        omega

/-- Membership of a character in bracket-class content (with `a-z` ranges;
a leading or trailing `-` is literal). -/
def classMember (c : Char) : List Char → Bool
  | [] => false
  | [a] => c = a
  | [a, b] => c = a ∨ c = b
  | a :: b :: d :: rest =>
    if b = '-' then (a ≤ c ∧ c ≤ d) ∨ classMember c rest
    else c = a ∨ classMember c (b :: d :: rest)

/-- fnmatch of one pattern component against one path component, on fuel
(every step consumes at least one pattern or subject character, so fuel
equal to the two lengths combined, as supplied by `fnmatchChars`, never
runs out). -/
def fnmatchAux : ℕ → List Char → List Char → Bool
  | 0, _, _ => false
  | _ + 1, [], [] => true
  | _ + 1, [], _ :: _ => false
  | fuel + 1, '*' :: p, s =>
    fnmatchAux fuel p s ||
      (match s with
       | [] => false
       | _ :: s' => fnmatchAux fuel ('*' :: p) s')
  | _ + 1, '?' :: _, [] => false
  | fuel + 1, '?' :: p, _ :: s' => fnmatchAux fuel p s'
  | fuel + 1, '[' :: p, s =>
    match classParse p with
    | some (neg, content, rest) =>
      match s with
      | [] => false
      | c :: s' =>
        (if neg then ¬ classMember c content else classMember c content) &&
          fnmatchAux fuel rest s'
    | none =>
      match s with
      | [] => false
      | c :: s' => c = '[' && fnmatchAux fuel p s'
  | _ + 1, _ :: _, [] => false
  | fuel + 1, a :: p, c :: s' => a = c && fnmatchAux fuel p s'

/-- fnmatch of one pattern component against one path component. -/
def fnmatchChars (pat s : List Char) : Bool :=
  fnmatchAux (pat.length + s.length + 1) pat s

/-- Match pattern components against relative path components on fuel;
a `**` component matches any number of leading components. -/
def matchPartsAux : ℕ → List String → List String → Bool
  | 0, _, _ => false
  | _ + 1, [], [] => true
  | _ + 1, [], _ :: _ => false
  | fuel + 1, p :: ps, segs =>
    if p = "**" then
      matchPartsAux fuel ps segs ||
        (match segs with
         | [] => false
         | _ :: segs' => matchPartsAux fuel (p :: ps) segs')
    else
      match segs with
      | [] => false
      | seg :: segs' => fnmatchChars p.toList seg.toList && matchPartsAux fuel ps segs'

/-- Match a list of pattern components against relative path components. -/
def matchParts (ps segs : List String) : Bool :=
  matchPartsAux (ps.length + segs.length + 1) ps segs

/-- Model of `base.glob(pattern)`, modelled over the finite file system: the
canonical entries strictly under `base` whose relative components match.
A pattern with a component containing `**` as a proper substring raises
`ValueError` in pathlib; callers catch every exception, so it yields no
matches here. -/
def globFS (fs : FS) (base : String) (pat : String) : List String :=
  let pc := goodComps pat
  if pc.isEmpty then []
  else if pc.any (fun c => strHasSub c "**" ∧ c ≠ "**") then []
  else
    let cb := canon base
    let bc := goodComps cb
    (allPathsC fs).filter (fun p =>
      isAbsStr p = isAbsStr cb ∧
      bc.isPrefixOf (goodComps p) ∧
      bc.length < (goodComps p).length ∧
      matchParts pc ((goodComps p).drop bc.length))

/-! ## The two regular expressions

`ALIAS_RE  = ^\s*alias\s+([A-Za-z0-9_+.\-]+)\s*=\s*(['"])(.*?)\2(?:\s*#\s*(.*))?\s*$`
`SOURCE_RE = ^\s*(?:source|\.)\s+(['"]?)([^'"]+)\1\s*$`

implemented as bespoke matchers.  `(.*?)\2` backtracks: the body is the
shortest prefix whose closing quote leaves a tail matching
`(?:\s*#\s*(.*))?\s*$`; the `[^'"]+` of `SOURCE_RE` is forced by its
character class, so no search is needed there. -/

/-- Model of `[A-Za-z0-9_+.\-]`. -/
def isNameChar (c : Char) : Bool :=
  c.isAlpha ∨ c.isDigit ∨ c = '_' ∨ c = '+' ∨ c = '.' ∨ c = '-'

/-- Match the tail `(?:\s*#\s*(.*))?\s*$` after the closing quote:
`some none` for an all-whitespace tail, `some (some t)` for a trailing
`# …` comment, `none` when the tail matches neither. -/
def checkRest (rest : List Char) : Option (Option String) :=
  match rest.dropWhile pySpace with
  | [] => some none
  | c :: r2 => if c = '#' then some (some (r2.dropWhile pySpace).asString) else none

/-- Non-greedy body search for `(.*?)\2…`: try each occurrence of the
quote character left to right as the closing quote. -/
def findBody (q : Char) : List Char → Option (List Char × Option String)
  | [] => none
  | c :: rest =>
    if c = q then
      match checkRest rest with
      | some t => some ([], t)
      | none => (findBody q rest).map (fun p => (c :: p.1, p.2))
    else (findBody q rest).map (fun p => (c :: p.1, p.2))

/-- Model of `ALIAS_RE.match(line)`: `some (name, quote, body, trailing-note)`. -/
def matchAlias (line : String) : Option (String × Char × String × Option String) :=
  let l0 := line.toList.dropWhile pySpace
  if "alias".toList.isPrefixOf l0 then
    let l1 := l0.drop 5
    match l1 with
    | [] => none
    | c :: _ =>
      if pySpace c then
        let l2 := l1.dropWhile pySpace
        let nm := l2.takeWhile isNameChar
        if nm.isEmpty then none
        else
          match (l2.dropWhile isNameChar).dropWhile pySpace with
          | [] => none
          | e :: l4 =>
            if e = '=' then
              match l4.dropWhile pySpace with
              | [] => none
              | qc :: l6 =>
                if qc = '\'' ∨ qc = '"' then
                  (findBody qc l6).map
                    (fun p => (nm.asString, qc, p.1.asString, p.2))
                else none
            else none
      else none
  else none

/-- Model of `SOURCE_RE.match(line)`, returning group 2 (the raw target). -/
def matchSource (line : String) : Option String :=
  let l0 := line.toList.dropWhile pySpace
  let kw : Option (List Char) :=
    if "source".toList.isPrefixOf l0 then some (l0.drop 6)
    else
      match l0 with
      | c :: rest => if c = '.' then some rest else none
      | [] => none
  match kw with
  | none => none
  | some l1 =>
    match l1 with
    | [] => none
    | c :: _ =>
      if pySpace c then
        let l2 := l1.dropWhile pySpace
        match l2 with
        | [] => none
        | qc :: l3 =>
          if qc = '\'' ∨ qc = '"' then
            let body := l3.takeWhile (fun ch => ch ≠ '\'' ∧ ch ≠ '"')
            match l3.dropWhile (fun ch => ch ≠ '\'' ∧ ch ≠ '"') with
            | [] => none
            | cc :: l4 =>
              if cc = qc ∧ ¬ body.isEmpty ∧ l4.all pySpace then some body.asString
              else none
          else
            let body := l2.takeWhile (fun ch => ch ≠ '\'' ∧ ch ≠ '"')
            if (l2.dropWhile (fun ch => ch ≠ '\'' ∧ ch ≠ '"')).isEmpty then
              some body.asString
            else none
      else none

/-! ## The line parser (source lines 62–119) -/

/-- The standalone note-comment test at line 100. -/
def isNoteLine (line : String) : Bool :=
  let stripped := pyStrip line
  strHasLead stripped "#" ∧
    (strHasSub (pyLower stripped) "note:" ∨ strHasLead stripped "#:")

/-- Lines 101–103: the text stored into the pending note buffer by a
note-comment line (`none` models Python's `note_text or None`). -/
def noteTextOf (line : String) : Option String :=
  let t0 := pyStrip (lstripHash (pyStrip line))
  let t1 :=
    if strHasLead (pyLower t0) "note:" then
      ((t0.toList.drop 5).dropWhile pySpace).asString
    else t0
  if t1 = "" then none else some t1

/-- Lines 80–96: resolve one include target (already `.strip()`-ed raw
group 2) to the list of paths appended to `sources`. -/
def resolveSource (fs : FS) (env : Env) (base_dir : String) (src_raw : String) :
    List String :=
  let expanded := expand_path env src_raw base_dir
  if hasGlobChar src_raw then
    if isAbsStr src_raw then
      (stableSortBy pathLe
          (globFS fs (pathNorm (dirnameStr src_raw)) (basenameStr src_raw))).filter
        (fun g => isFileFS fs g)
    else
      (stableSortBy pathLe (globFS fs base_dir src_raw)).filter
        (fun g => isFileFS fs g)
  else if existsFS fs expanded then [expanded]
  else []

/-- Result of parsing a run of lines: records, include targets, and the
final pending note buffer (spec §9 asks for the buffer as explicit
threaded parser state). -/
structure ParseResult where
  aliases : List AliasRecord
  sources : List String
  buf : Option String
deriving Repr, DecidableEq

/-- One iteration of the per-line loop of `parse_aliases_from_file`
(lines 74–117): include check first, then the note-comment check, then the
alias shape.  Returns the records and include targets this line emits and
the pending note buffer it leaves behind; `n` is the 1-based line number. -/
def parseStep (fs : FS) (env : Env) (path base_dir : String) (n : ℕ)
    (buf : Option String) (line : String) :
    List AliasRecord × List String × Option String :=
  match matchSource line with
  | some raw => ([], resolveSource fs env base_dir (pyStrip raw), buf)
  | none =>
    if isNoteLine line then ([], [], noteTextOf line)
    else
      match matchAlias line with
      | none => ([], [], buf)
      | some (name, _qc, body, trailing) =>
        let note0 := match trailing with | some t => pyStrip t | none => ""
        let bufTruthy : Bool := match buf with | some b => b != "" | none => false
        let note :=
          if bufTruthy then
            buf.getD "" ++ (if note0 ≠ "" then " | " ++ note0 else "")
          else note0
        let buf' := if bufTruthy then none else buf
        ([⟨name, body, note, path, n⟩], [], buf')

/-- The per-line loop, threading the pending note buffer through
`parseStep` line by line. -/
def parseAux (fs : FS) (env : Env) (path base_dir : String) :
    ℕ → Option String → List String → ParseResult
  | _, buf, [] => ⟨[], [], buf⟩
  | n, buf, line :: rest =>
    let st := parseStep fs env path base_dir n buf line
    let r := parseAux fs env path base_dir (n + 1) st.2.2 rest
    ⟨st.1 ++ r.aliases, st.2.1 ++ r.sources, r.buf⟩

theorem parseAux_nil (fs : FS) (env : Env) (path base_dir : String) (n : ℕ)
    (buf : Option String) :
    parseAux fs env path base_dir n buf [] = ⟨[], [], buf⟩ := rfl

theorem parseAux_cons (fs : FS) (env : Env) (path base_dir : String) (n : ℕ)
    (buf : Option String) (line : String) (rest : List String) :
    parseAux fs env path base_dir n buf (line :: rest) =
      ⟨(parseStep fs env path base_dir n buf line).1 ++
          (parseAux fs env path base_dir (n + 1)
            (parseStep fs env path base_dir n buf line).2.2 rest).aliases,
        (parseStep fs env path base_dir n buf line).2.1 ++
          (parseAux fs env path base_dir (n + 1)
            (parseStep fs env path base_dir n buf line).2.2 rest).sources,
        (parseAux fs env path base_dir (n + 1)
          (parseStep fs env path base_dir n buf line).2.2 rest).buf⟩ := rfl

/-- Model of `parse_aliases_from_file` (lines 62–119): a missing, non-regular or
unreadable file contributes nothing. -/
def parse_aliases_from_file (fs : FS) (env : Env) (path : String) :
    List AliasRecord × List String :=
  if existsFS fs path ∧ isFileFS fs path then
    match contentOf fs path with
    | some lines =>
      let r := parseAux fs env path (parentStr path) 1 none lines
      (r.aliases, r.sources)
    | none => ([], [])
  else ([], [])

/-! ## Canonicalisation lemmas

`canon` is idempotent; this underpins the termination measure of the
traversal loop (every enqueued path lies in a fixed finite set). -/

theorem splitSlash_ne_nil (l : List Char) : splitSlash l ≠ [] := by
  cases l with
  | nil => simp [splitSlash]
  | cons c rest =>
    rw [splitSlash]
    by_cases h : c = '/'
    · simp [h]
    · rw [if_neg h]
      rcases hs : splitSlash rest with _ | ⟨s, ss⟩ <;> simp

theorem splitSlash_mem_no_slash :
    ∀ (l : List Char) (x : List Char), x ∈ splitSlash l → '/' ∉ x := by
  intro l
  induction l with
  | nil => intro x hx; simp [splitSlash] at hx; simp [hx]
  | cons c rest ih =>
    intro x hx
    rw [splitSlash] at hx
    by_cases h : c = '/'
    · rw [if_pos h] at hx
      rcases List.mem_cons.mp hx with rfl | hx
      · simp
      · exact ih x hx
    · rw [if_neg h] at hx
      rcases hs : splitSlash rest with _ | ⟨s, ss⟩
      · exact absurd hs (splitSlash_ne_nil rest)
      · rw [hs] at hx
        rcases List.mem_cons.mp hx with rfl | hx
        · intro hc
          rcases List.mem_cons.mp hc with hc | hc
          · exact h hc.symm
          · exact ih s (hs ▸ List.mem_cons_self s ss) hc
        · exact ih x (hs ▸ List.mem_cons_of_mem s hx)

theorem splitSlash_no_slash (l : List Char) (h : '/' ∉ l) : splitSlash l = [l] := by
  induction l with
  | nil => simp [splitSlash]
  | cons c rest ih =>
    rw [splitSlash, if_neg (by intro hc; exact h (hc ▸ List.mem_cons_self c rest))]
    rw [ih (fun hc => h (List.mem_cons_of_mem c hc))]

theorem splitSlash_append (w t : List Char) (h : '/' ∉ w) :
    splitSlash (w ++ '/' :: t) = w :: splitSlash t := by
  induction w with
  | nil => simp [splitSlash]
  | cons x w' ih =>
    have hx : x ≠ '/' := fun hc => h (hc ▸ List.mem_cons_self x w')
    rw [List.cons_append, splitSlash, if_neg hx,
      ih (fun hc => h (List.mem_cons_of_mem x hc))]

theorem goodComps_mem (p : String) (c : String) (hc : c ∈ goodComps p) :
    c ≠ "" ∧ c ≠ "." ∧ '/' ∉ c.toList := by
  unfold goodComps at hc
  rcases List.mem_filter.mp hc with ⟨hm, hpred⟩
  rcases List.mem_map.mp hm with ⟨x, hx, rfl⟩
  have h3 := splitSlash_mem_no_slash p.toList x hx
  refine ⟨?_, ?_, by simpa using h3⟩
  · simpa using (of_decide_eq_true hpred).1
  · simpa using (of_decide_eq_true hpred).2

theorem splitSlash_join :
    ∀ cs : List String, cs ≠ [] → (∀ c ∈ cs, '/' ∉ c.toList) →
      splitSlash (joinSlash cs).toList = cs.map String.toList := by
  intro cs
  induction cs with
  | nil => intro h; exact absurd rfl h
  | cons c rest ih =>
    intro _ hns
    rcases rest with _ | ⟨d, rest'⟩
    · rw [show joinSlash [c] = c from rfl]
      rw [splitSlash_no_slash _ (hns c (List.mem_cons_self c []))]
      simp
    · rw [show joinSlash (c :: d :: rest') = c ++ "/" ++ joinSlash (d :: rest') from rfl]
      have htl : (c ++ "/" ++ joinSlash (d :: rest')).toList =
          c.toList ++ '/' :: (joinSlash (d :: rest')).toList := by
        show ((c ++ "/") ++ joinSlash (d :: rest')).data = _
        rw [String.data_append, String.data_append, List.append_assoc]
        rfl
      rw [htl, splitSlash_append _ _ (hns c (List.mem_cons_self c _))]
      rw [ih (by intro hx; cases hx) (fun x hx => hns x (List.mem_cons_of_mem c hx))]
      rfl

theorem asString_toList (s : String) : s.toList.asString = s := by
  cases s; rfl

theorem goodComps_render (abs : Bool) (cs : List String)
    (h : ∀ c ∈ cs, c ≠ "" ∧ c ≠ "." ∧ '/' ∉ c.toList) :
    goodComps (renderComps abs cs) = cs := by
  have hmap : ∀ ls : List String, (ls.map String.toList).map List.asString = ls := by
    intro ls
    rw [List.map_map]
    have hcomp : (List.asString ∘ String.toList) = id := funext asString_toList
    rw [hcomp, List.map_id]
  have hfilter : (cs.filter (fun c => c ≠ "" ∧ c ≠ ".")) = cs :=
    List.filter_eq_self.mpr
      (fun a ha => decide_eq_true ⟨(h a ha).1, (h a ha).2.1⟩)
  unfold renderComps
  rcases cs with _ | ⟨c, rest⟩
  · cases abs <;> simp <;> decide
  · rw [if_neg (by simp)]
    have hjoin := splitSlash_join (c :: rest) (List.cons_ne_nil c rest)
      (fun x hx => (h x hx).2.2)
    cases abs
    · simp only [Bool.false_eq_true, if_false]
      show ((splitSlash ("" ++ joinSlash (c :: rest)).toList).map List.asString).filter
          (fun c => c ≠ "" ∧ c ≠ ".") = c :: rest
      rw [String.empty_append, hjoin, hmap]
      exact hfilter
    · simp only [if_true]
      show ((splitSlash ("/" ++ joinSlash (c :: rest)).toList).map List.asString).filter
          (fun c => c ≠ "" ∧ c ≠ ".") = c :: rest
      have htl : ("/" ++ joinSlash (c :: rest)).toList =
          '/' :: (joinSlash (c :: rest)).toList := by
        show ("/" ++ joinSlash (c :: rest)).data = _
        rw [String.data_append]
        rfl
      rw [htl, splitSlash, if_pos rfl, hjoin, List.map_cons, hmap, List.filter_cons]
      have hdrop : (decide ((List.asString [] : String) ≠ "" ∧
          (List.asString [] : String) ≠ ".")) = false := by decide
      rw [hdrop]
      simp only [Bool.false_eq_true, if_false]
      exact hfilter

theorem isAbs_render (abs : Bool) (cs : List String)
    (h : ∀ c ∈ cs, c ≠ "" ∧ '/' ∉ c.toList) :
    isAbsStr (renderComps abs cs) = abs := by
  unfold renderComps
  rcases cs with _ | ⟨c, rest⟩
  · cases abs <;> simp <;> rfl
  · rw [if_neg (by simp)]
    have hc := h c (List.mem_cons_self c rest)
    obtain ⟨ch, ctl, hctl⟩ : ∃ ch ctl, c.toList = ch :: ctl := by
      rcases hcl : c.toList with _ | ⟨ch, ctl⟩
      · have hce : c = "" := by
          cases c with
          | mk data =>
            simp only [String.toList] at hcl
            subst hcl
            rfl
        exact absurd hce hc.1
      · exact ⟨ch, ctl, rfl⟩
    have hch : ch ≠ '/' := by
      intro hcc
      exact hc.2 (by rw [hctl, hcc]; exact List.mem_cons_self _ _)
    have hjtl : ∃ rest', (joinSlash (c :: rest)).toList = ch :: rest' := by
      rcases rest with _ | ⟨d, rest''⟩
      · exact ⟨ctl, by rw [show joinSlash [c] = c from rfl]; exact hctl⟩
      · refine ⟨ctl ++ '/' :: (joinSlash (d :: rest'')).toList, ?_⟩
        rw [show joinSlash (c :: d :: rest'') = c ++ "/" ++ joinSlash (d :: rest'') from rfl]
        show ((c ++ "/") ++ joinSlash (d :: rest'')).data = _
        rw [String.data_append, String.data_append]
        rw [show c.data = ch :: ctl from hctl]
        simp [List.append_assoc]
      
    obtain ⟨rest', hrest'⟩ := hjtl
    cases abs
    · simp only [Bool.false_eq_true, if_false]
      unfold isAbsStr strHasLead
      apply Bool.eq_false_iff.mpr
      intro hcontra
      have : (("" ++ joinSlash (c :: rest))).toList = ch :: rest' := by
        rw [String.nil_append]; exact hrest'
      rw [this] at hcontra
      have := List.isPrefixOf_iff_prefix.mp hcontra
      rcases this with ⟨t, ht⟩
      have : '/' = ch := by
        have := congrArg (fun l => l.head?) ht
        simpa using this
      exact hch this.symm
    · simp only [if_pos]
      unfold isAbsStr strHasLead
      apply List.isPrefixOf_iff_prefix.mpr
      have : (("/" ++ joinSlash (c :: rest))).toList = '/' :: (joinSlash (c :: rest)).toList := by
        show (("/" ++ joinSlash (c :: rest))).data = _
        rw [String.data_append]; rfl
      rw [this]
      exact ⟨_, rfl⟩

theorem dotStep_eq_push (abs : Bool) (st : List String) (c : String)
    (hc : c ≠ "..") : dotStep abs st c = c :: st := by
  unfold dotStep
  rw [if_neg hc]

theorem dotStep_dd_nil (abs : Bool) :
    dotStep abs [] ".." = if abs then [] else [".."] := by
  unfold dotStep
  rw [if_pos rfl]

theorem dotStep_dd_cons (abs : Bool) (h : String) (t : List String) :
    dotStep abs (h :: t) ".." =
      if abs then t else (if h = ".." then ".." :: h :: t else t) := by
  unfold dotStep
  rw [if_pos rfl]

theorem dotStep_sub (abs : Bool) (st : List String) (c x : String)
    (hx : x ∈ dotStep abs st c) : x ∈ st ∨ x = c := by
  by_cases hc : c = ".."
  · subst hc
    rcases st with _ | ⟨h, t⟩
    · rw [dotStep_dd_nil] at hx
      cases abs
      · simp at hx
        right
        exact hx
      · simp at hx
    · rw [dotStep_dd_cons] at hx
      cases abs
      · by_cases hh : h = ".."
        · rw [if_neg (by simp), if_pos hh] at hx
          rcases List.mem_cons.mp hx with rfl | hx
          · right; rfl
          · left; exact hx
        · rw [if_neg (by simp), if_neg hh] at hx
          left; exact List.mem_cons_of_mem h hx
      · rw [if_pos rfl] at hx
        left; exact List.mem_cons_of_mem h hx
  · rw [dotStep_eq_push abs st c hc] at hx
    rcases List.mem_cons.mp hx with rfl | hx
    · right; rfl
    · left; exact hx

theorem foldl_dotStep_sub (abs : Bool) :
    ∀ (cs : List String) (st : List String) (x : String),
      x ∈ cs.foldl (dotStep abs) st → x ∈ st ∨ x ∈ cs := by
  intro cs
  induction cs with
  | nil => intro st x hx; left; exact hx
  | cons c rest ih =>
    intro st x hx
    rw [List.foldl_cons] at hx
    rcases ih (dotStep abs st c) x hx with hx | hx
    · rcases dotStep_sub abs st c x hx with hx | rfl
      · left; exact hx
      · right; exact List.mem_cons_self _ _
    · right; exact List.mem_cons_of_mem c hx

theorem procDots_sub (abs : Bool) (cs : List String) (x : String)
    (hx : x ∈ procDots abs cs) : x ∈ cs := by
  unfold procDots at hx
  rcases foldl_dotStep_sub abs cs [] x (List.mem_reverse.mp hx) with hx | hx
  · cases hx
  · exact hx

/-- Stack shape invariant for `..` elimination: any `..` components sit at
the bottom of the (reversed) stack, and for an absolute path there are
none. -/
def StackOK (abs : Bool) (st : List String) : Prop :=
  ∃ a k, st = a ++ List.replicate k ".." ∧ ".." ∉ a ∧ (abs = true → k = 0)

theorem dotStep_stackOK (abs : Bool) (st : List String) (c : String)
    (h : StackOK abs st) : StackOK abs (dotStep abs st c) := by
  obtain ⟨a, k, rfl, hna, hk⟩ := h
  by_cases hc : c = ".."
  · subst hc
    rcases a with _ | ⟨h0, a'⟩
    · rcases k with _ | m
      · have hst : dotStep abs ([] ++ List.replicate 0 ("..":String)) ".." =
            if abs then [] else [".."] := by
          simp [dotStep]
        rw [hst]
        cases abs
        · exact ⟨[], 1, by simp [List.replicate_succ], by simp, by simp⟩
        · exact ⟨[], 0, by simp, by simp, fun _ => rfl⟩
      · have habs : abs = false := by
          cases abs
          · rfl
          · exact absurd (hk rfl) (by simp)
        subst habs
        have hst : dotStep false ([] ++ List.replicate (m + 1) ("..":String)) ".." =
            ".." :: ".." :: List.replicate m ".." := by
          simp [dotStep, List.replicate_succ]
        rw [hst]
        refine ⟨[], m + 2, ?_, by simp, by simp⟩
        simp [List.replicate_succ]
    · have hh0 : h0 ≠ ".." := fun hx => hna (hx ▸ List.mem_cons_self h0 a')
      have hst : dotStep abs ((h0 :: a') ++ List.replicate k "..") ".." =
          a' ++ List.replicate k ".." := by
        cases abs <;> simp [dotStep, hh0]
      rw [hst]
      exact ⟨a', k, rfl, fun hx => hna (List.mem_cons_of_mem h0 hx), hk⟩
  · have hst : dotStep abs (a ++ List.replicate k "..") c =
        c :: (a ++ List.replicate k "..") := by
      unfold dotStep
      rw [if_neg hc]
    rw [hst]
    refine ⟨c :: a, k, by simp, ?_, hk⟩
    intro hx
    rcases List.mem_cons.mp hx with hx | hx
    · exact hc hx.symm
    · exact hna hx

theorem foldl_dotStep_stackOK (abs : Bool) :
    ∀ (cs : List String) (st : List String), StackOK abs st →
      StackOK abs (cs.foldl (dotStep abs) st) := by
  intro cs
  induction cs with
  | nil => intro st h; exact h
  | cons c rest ih =>
    intro st h
    rw [List.foldl_cons]
    exact ih _ (dotStep_stackOK abs st c h)

theorem procDots_shape (abs : Bool) (cs : List String) :
    ∃ k rest, procDots abs cs = List.replicate k ".." ++ rest ∧
      ".." ∉ rest ∧ (abs = true → k = 0) := by
  obtain ⟨a, k, hst, hna, hk⟩ :=
    foldl_dotStep_stackOK abs cs [] ⟨[], 0, rfl, by simp, fun _ => rfl⟩
  refine ⟨k, a.reverse, ?_, by simpa using hna, hk⟩
  unfold procDots
  rw [hst, List.reverse_append, List.reverse_replicate]

theorem foldl_dotStep_noDD (abs : Bool) :
    ∀ (rest : List String), ".." ∉ rest →
      ∀ st, rest.foldl (dotStep abs) st = rest.reverse ++ st := by
  intro rest
  induction rest with
  | nil => intro _ st; simp
  | cons c r ih =>
    intro h st
    have hc : c ≠ ".." := fun hx => h (hx ▸ List.mem_cons_self c r)
    rw [List.foldl_cons]
    have hst : dotStep abs st c = c :: st := by
      unfold dotStep
      rw [if_neg (fun hx => hc hx)]
    rw [hst, ih (fun hx => h (List.mem_cons_of_mem c hx)) (c :: st)]
    simp

theorem dotStep_repl (m : ℕ) :
    dotStep false (List.replicate m ("..":String)) ".." =
      List.replicate (m + 1) ".." := by
  rcases m with _ | m'
  · simp [dotStep, List.replicate_succ]
  · simp [dotStep, List.replicate_succ]

theorem foldl_dotStep_repl :
    ∀ (k m : ℕ), (List.replicate k ("..":String)).foldl (dotStep false)
      (List.replicate m "..") = List.replicate (k + m) ".." := by
  intro k
  induction k with
  | zero => intro m; simp
  | succ k' ih =>
    intro m
    rw [List.replicate_succ, List.foldl_cons, dotStep_repl, ih (m + 1)]
    congr 1
    omega

theorem procDots_idem (abs : Bool) (cs : List String) :
    procDots abs (procDots abs cs) = procDots abs cs := by
  obtain ⟨k, rest, hout, hnr, hk⟩ := procDots_shape abs cs
  rw [hout]
  show ((List.replicate k ".." ++ rest).foldl (dotStep abs) []).reverse = _
  cases abs
  · rw [List.foldl_append]
    rw [show (List.replicate k ("..":String)).foldl (dotStep false) [] =
        List.replicate k ".." by
      have := foldl_dotStep_repl k 0
      simpa using this]
    rw [foldl_dotStep_noDD false rest hnr]
    rw [List.reverse_append, List.reverse_reverse, List.reverse_replicate]
  · rw [hk rfl] at hout ⊢
    simp only [List.replicate_zero, List.nil_append]
    rw [foldl_dotStep_noDD true rest hnr]
    simp

theorem canon_idem (p : String) : canon (canon p) = canon p := by
  unfold canon
  set abs := isAbsStr p with habs
  set X := procDots abs (goodComps p) with hX
  have hXcond : ∀ c ∈ X, c ≠ "" ∧ c ≠ "." ∧ '/' ∉ c.toList := by
    intro c hc
    have hmem := procDots_sub abs (goodComps p) c hc
    exact goodComps_mem p c hmem
  have hA : isAbsStr (renderComps abs X) = abs :=
    isAbs_render abs X (fun c hc => ⟨(hXcond c hc).1, (hXcond c hc).2.2⟩)
  have hG : goodComps (renderComps abs X) = X := goodComps_render abs X hXcond
  rw [hA, hG, show procDots abs X = X from ?_]
  · rw [hX]
    exact procDots_idem abs _

/-! ## The traversal (`collect_aliases`, source lines 122–143) -/

/-- Model of `merged[a["name"]] = a` on a Python dict modelled as an
insertion-ordered record list: updating an existing key replaces the
record in place, a new key is appended. -/
def dInsert (m : List AliasRecord) (a : AliasRecord) : List AliasRecord :=
  if m.any (fun r => r.name == a.name) then
    m.map (fun r => if r.name == a.name then a else r)
  else m ++ [a]

/-- Lines 134–141: expand one resolved source entry into queue entries
(directories enumerate shell-suffixed regular files recursively, in
sorted order). -/
def expandSrc (fs : FS) (s : String) : List String :=
  if isDirFS fs s then
    (stableSortBy pathLe (globFS fs s "**/*")).filter
      (fun f => isFileFS fs f && (suffixStr f == ".zsh" || suffixStr f == ".sh"))
  else if existsFS fs s then [s]
  else []

/-- All absolute include targets any stored file could ever produce
(used only for the termination measure of the traversal). -/
def absTargetsOf (env : Env) (lines : List String) : List String :=
  lines.filterMap (fun l =>
    (matchSource l).map
      (fun raw => pathNorm (expandvars env (expanduser env (pyStrip raw)))))

/-- A finite superset of every path the traversal can ever enqueue from a
parsed file. -/
def enqueueUniverse (fs : FS) (env : Env) : List String :=
  fs.files.flatMap (fun e => absTargetsOf env e.2) ++ allPathsC fs

theorem mem_stableSortBy {α : Type*} (le : α → α → Bool) (l : List α) (x : α) :
    x ∈ stableSortBy le l ↔ x ∈ l :=
  (stableSortBy_perm le l).mem_iff

theorem globFS_sub (fs : FS) (base pat : String) :
    ∀ p ∈ globFS fs base pat, p ∈ allPathsC fs := by
  intro p hp
  simp only [globFS] at hp
  split at hp
  · cases hp
  · split at hp
    · cases hp
    · exact (List.mem_filter.mp hp).1

theorem existsFS_canonical (fs : FS) (s : String) (hc : canon s = s)
    (he : existsFS fs s = true) : s ∈ allPathsC fs := by
  unfold existsFS isFileFS isDirFS at he
  unfold allPathsC
  rw [Bool.or_eq_true] at he
  rcases he with he | he
  · exact List.mem_append_left _ (by
      have h2 : canon s ∈ fs.files.map (fun e => canon e.1) := List.elem_iff.mp he
      rwa [hc] at h2)
  · exact List.mem_append_right _ (by
      have h2 : canon s ∈ fs.dirs.map canon := List.elem_iff.mp he
      rwa [hc] at h2)

theorem resolveSource_sub (fs : FS) (env : Env) (base raw : String) :
    ∀ s ∈ resolveSource fs env base raw,
      s ∈ allPathsC fs ∨ s = pathNorm (expandvars env (expanduser env raw)) := by
  intro s hs
  simp only [resolveSource] at hs
  split at hs
  · split at hs
    · left
      exact globFS_sub fs _ _ s
        ((mem_stableSortBy _ _ _).mp (List.mem_filter.mp hs).1)
    · left
      exact globFS_sub fs _ _ s
        ((mem_stableSortBy _ _ _).mp (List.mem_filter.mp hs).1)
  · rename_i hglob
    split at hs
    · rename_i hex
      have hse : s = expand_path env raw base := by simpa using hs
      unfold expand_path at hse
      by_cases habs : isAbsStr (expandvars env (expanduser env raw)) = true
      · right
        rw [hse, if_pos habs]
      · left
        rw [if_neg habs] at hse
        subst hse
        exact existsFS_canonical fs _ (canon_idem _) (by
          have := hex
          unfold expand_path at this
          rwa [if_neg habs] at this)
    · cases hs

theorem parseStep_sources_sub (fs : FS) (env : Env) (path base : String)
    (n : ℕ) (buf : Option String) (line : String) :
    ∀ s ∈ (parseStep fs env path base n buf line).2.1,
      ∃ raw, matchSource line = some raw ∧
        (s ∈ allPathsC fs ∨
          s = pathNorm (expandvars env (expanduser env (pyStrip raw)))) := by
  intro s hs
  rcases hm : matchSource line with _ | raw
  · simp only [parseStep, hm] at hs
    split at hs
    · cases hs
    · split at hs
      · cases hs
      · simp at hs
  · simp only [parseStep, hm] at hs
    exact ⟨raw, rfl, resolveSource_sub fs env base (pyStrip raw) s hs⟩

theorem parseAux_sources_sub (fs : FS) (env : Env) (path base : String) :
    ∀ (lines : List String) (n : ℕ) (buf : Option String),
      ∀ s ∈ (parseAux fs env path base n buf lines).sources,
        s ∈ allPathsC fs ∨ s ∈ absTargetsOf env lines := by
  intro lines
  induction lines with
  | nil => intro n buf s hs; simp [parseAux_nil] at hs
  | cons line rest ih =>
    intro n buf s hs
    rw [parseAux_cons] at hs
    rcases List.mem_append.mp hs with h | h
    · obtain ⟨raw, hm, hor⟩ := parseStep_sources_sub fs env path base n buf line s h
      rcases hor with h2 | h2
      · left; exact h2
      · right
        unfold absTargetsOf
        rw [List.filterMap_cons, hm]
        rw [h2]
        exact List.mem_cons_self _ _
    · rcases ih (n + 1) _ s h with h2 | h2
      · left; exact h2
      · right
        unfold absTargetsOf at h2 ⊢
        rw [List.filterMap_cons]
        rcases hm : matchSource line with _ | raw
        · simpa using h2
        · exact List.mem_cons_of_mem _ h2

theorem parse_file_sources_sub (fs : FS) (env : Env) (p : String) :
    ∀ s ∈ (parse_aliases_from_file fs env p).2, s ∈ enqueueUniverse fs env := by
  intro s hs
  unfold parse_aliases_from_file at hs
  split at hs
  · rcases hc : contentOf fs p with _ | lines
    · rw [hc] at hs; cases hs
    · rw [hc] at hs
      simp only at hs
      rcases parseAux_sources_sub fs env p (parentStr p) lines 1 none s hs with h | h
      · exact List.mem_append_right _ h
      · apply List.mem_append_left
        unfold contentOf at hc
        rcases Option.map_eq_some'.mp hc with ⟨e, hfind, he⟩
        have hmem := List.mem_of_find?_eq_some hfind
        apply List.mem_flatMap.mpr
        exact ⟨e, hmem, he ▸ h⟩
  · cases hs

theorem expandSrc_sub (fs : FS) (s : String) :
    ∀ t ∈ expandSrc fs s, t ∈ allPathsC fs ∨ t = s := by
  intro t ht
  unfold expandSrc at ht
  split at ht
  · left
    exact globFS_sub fs _ _ t
      ((mem_stableSortBy _ _ _).mp (List.mem_filter.mp ht).1)
  · split at ht
    · right; simpa using ht
    · cases ht

theorem enqueue_sub (fs : FS) (env : Env) (cur : String) :
    ∀ t ∈ (parse_aliases_from_file fs env cur).2.flatMap (expandSrc fs),
      t ∈ enqueueUniverse fs env := by
  intro t ht
  obtain ⟨s, hsm, hts⟩ := List.mem_flatMap.mp ht
  rcases expandSrc_sub fs s t hts with h | rfl
  · exact List.mem_append_right _ h
  · exact parse_file_sources_sub fs env cur t hsm

theorem length_filter_mono {α : Type*} (p q : α → Bool) (l : List α)
    (h : ∀ x ∈ l, p x = true → q x = true) :
    (l.filter p).length ≤ (l.filter q).length := by
  induction l with
  | nil => simp
  | cons c t ih =>
    have iht := ih (fun x hx => h x (List.mem_cons_of_mem c hx))
    rw [List.filter_cons, List.filter_cons]
    by_cases hp : p c = true
    · rw [if_pos hp, if_pos (h c (List.mem_cons_self c t) hp)]
      simpa using iht
    · rw [if_neg hp]
      by_cases hq : q c = true
      · rw [if_pos hq]
        exact Nat.le_succ_of_le iht
      · rw [if_neg hq]
        exact iht

theorem length_filter_lt {α : Type*} (p q : α → Bool) (l : List α)
    (h : ∀ x ∈ l, p x = true → q x = true) (x₀ : α) (hx : x₀ ∈ l)
    (hpx : p x₀ = false) (hqx : q x₀ = true) :
    (l.filter p).length < (l.filter q).length := by
  induction l with
  | nil => cases hx
  | cons c t ih =>
    rw [List.filter_cons, List.filter_cons]
    by_cases hp : p c = true
    · have hq := h c (List.mem_cons_self c t) hp
      rw [if_pos hp, if_pos hq]
      have hxt : x₀ ∈ t := by
        rcases List.mem_cons.mp hx with rfl | hxt
        · rw [hp] at hpx; cases hpx
        · exact hxt
      simpa using ih (fun x hxx => h x (List.mem_cons_of_mem c hxx)) hxt
    · rw [if_neg hp]
      by_cases hq : q c = true
      · rw [if_pos hq]
        exact Nat.lt_succ_of_le
          (length_filter_mono p q t (fun x hxx => h x (List.mem_cons_of_mem c hxx)))
      · rw [if_neg hq]
        have hxt : x₀ ∈ t := by
          rcases List.mem_cons.mp hx with rfl | hxt
          · rw [hqx] at hq; cases hq rfl
          · exact hxt
        exact ih (fun x hxx => h x (List.mem_cons_of_mem c hxx)) hxt

/-- The traversal loop of `collect_aliases` (lines 125–142): FIFO queue,
visited set, incremental last-wins merge.  `trace` records each path as it
is dequeued and parsed (used to state the dedup invariant).  Termination:
every path a parse can enqueue lies in the finite `enqueueUniverse`. -/
def collectLoop (fs : FS) (env : Env) (seen : List String)
    (merged : List AliasRecord) (trace : List String) (queue : List String) :
    List AliasRecord × List String :=
  match queue with
  | [] => (merged, trace)
  | cur :: rest =>
    if hmem : cur ∈ seen then collectLoop fs env seen merged trace rest
    else
      collectLoop fs env (cur :: seen)
        (((parse_aliases_from_file fs env cur).1).foldl dInsert merged)
        (trace ++ [cur])
        (rest ++ (parse_aliases_from_file fs env cur).2.flatMap (expandSrc fs))
termination_by
  ((((enqueueUniverse fs env).filter (fun p => p ∉ seen)).length,
    (queue.filter (fun p => p ∉ enqueueUniverse fs env)).length,
    queue.length))
decreasing_by
  · by_cases hv : h ∈ enqueueUniverse fs env
    · have h2 : ((h :: t).filter (fun p => p ∉ enqueueUniverse fs env)) =
          t.filter (fun p => p ∉ enqueueUniverse fs env) := by
        rw [List.filter_cons, if_neg (by simpa using hv)]
      rw [h2]
      apply Prod.Lex.right
      apply Prod.Lex.right
      simp
    · have h2 : ((h :: t).filter (fun p => p ∉ enqueueUniverse fs env)) =
          h :: t.filter (fun p => p ∉ enqueueUniverse fs env) := by
        rw [List.filter_cons, if_pos (by simpa using hv)]
      rw [h2]
      apply Prod.Lex.right
      apply Prod.Lex.left
      simp
  · by_cases hv : h ∈ enqueueUniverse fs env
    · apply Prod.Lex.left
      apply length_filter_lt _ _ _ ?_ h hv ?_ ?_
      · intro x _ hx
        simp only [decide_eq_true_eq] at hx ⊢
        intro hxs
        exact hx (List.mem_cons_of_mem h hxs)
      · simp
      · simpa using hmem
    · have h1 : (enqueueUniverse fs env).filter (fun p => p ∉ h :: seen) =
          (enqueueUniverse fs env).filter (fun p => p ∉ seen) := by
        apply List.filter_congr
        intro x hx
        have hxc : x ≠ h := fun he => hv (he ▸ hx)
        simp [List.mem_cons, hxc]
      rw [h1]
      apply Prod.Lex.right
      have hnew :
          ((t ++ (parse_aliases_from_file fs env h).2.flatMap (expandSrc fs)).filter
            (fun p => p ∉ enqueueUniverse fs env)) =
          t.filter (fun p => p ∉ enqueueUniverse fs env) := by
        rw [List.filter_append]
        rw [show (((parse_aliases_from_file fs env h).2.flatMap (expandSrc fs)).filter
            (fun p => p ∉ enqueueUniverse fs env)) = [] from
          List.filter_eq_nil_iff.mpr (fun a ha => by
            simpa using enqueue_sub fs env h a ha)]
        rw [List.append_nil]
      rw [hnew]
      have hold : ((h :: t).filter (fun p => p ∉ enqueueUniverse fs env)) =
          h :: t.filter (fun p => p ∉ enqueueUniverse fs env) := by
        rw [List.filter_cons, if_pos (by simpa using hv)]
      rw [hold]
      apply Prod.Lex.left
      simp

/-- Comparator of the final display sort (line 143):
`key=lambda x: x["name"].lower()`. -/
def recNameLe (a b : AliasRecord) : Bool :=
  decide (pyLower a.name ≤ pyLower b.name)

/-- Model of `collect_aliases` (lines 122–143): traverse from the root, merge
last-wins, and return the records sorted by case-insensitive name. -/
def collect_aliases (fs : FS) (env : Env) (root_rc : String) : List AliasRecord :=
  stableSortBy recNameLe (collectLoop fs env [] [] [] [root_rc]).1

/-- The sequence of paths the traversal dequeues and parses, in order. -/
def collectTrace (fs : FS) (env : Env) (root_rc : String) : List String :=
  (collectLoop fs env [] [] [] [root_rc]).2

/-! ## Matching and filtering (source lines 147–161) -/

/-- Model of `tokens` (lines 147–148). -/
def tokens (s : String) : List String :=
  (pySplit (pyLower s)).filter (fun t => t ≠ "")

/-- The search haystack of a record:
`" ".join([name, body, note]).lower()`. -/
def hayOf (a : AliasRecord) : String :=
  pyLower (a.name ++ " " ++ a.body ++ " " ++ a.note)

/-- Model of `match_score` (lines 151–155). -/
def match_score (a : AliasRecord) (needle : String) : ℕ :=
  if pyStrip needle = "" then 1
  else (tokens needle).countP (fun t => strHasSub (hayOf a) t)

/-- The sort key of `filter_aliases` (line 160):
`key=lambda x: (-x[0], x[1]["name"].lower())`, as a comparator. -/
def scoredLe (x y : ℕ × AliasRecord) : Bool :=
  decide (y.1 < x.1) ||
    (decide (x.1 = y.1) && decide (pyLower x.2.name ≤ pyLower y.2.name))

/-- Model of `filter_aliases` (lines 158–161). -/
def filter_aliases (items : List AliasRecord) (needle : String) :
    List AliasRecord :=
  let scored := items.map (fun a => (match_score a needle, a))
  let sorted := stableSortBy scoredLe scored
  (sorted.filter (fun sa => sa.1 > 0 ∨ pyStrip needle = "")).map Prod.snd

/-! ## The annotation store (source lines 39–51)

The store lives in a JSON file; reading bytes and the atomic
temp-file-plus-rename write are external I/O, so persistence is modelled
as storing the mapping itself: `save_notes` yields the on-disk state and
`load_notes` reads it back (an absent file is an empty store; a malformed
file is also treated as empty, which the model folds into `none`). -/

/-- Model of `load_notes` (lines 39–45). -/
def load_notes (disk : Option (List (String × String))) : List (String × String) :=
  disk.getD []

/-- Model of `save_notes` (lines 48–51): atomically replace the on-disk store. -/
def save_notes (notes : List (String × String)) : Option (List (String × String)) :=
  some notes

/-- Python dict lookup `notes[k]` (as an option). -/
def notesLookup (notes : List (String × String)) (k : String) : Option String :=
  (notes.find? (fun e => e.1 == k)).map (fun e => e.2)

/-- Python dict update `notes[k] = v` (insertion-ordered). -/
def notesInsert (notes : List (String × String)) (k v : String) :
    List (String × String) :=
  if notes.any (fun e => e.1 == k) then
    notes.map (fun e => if e.1 == k then (k, v) else e)
  else notes ++ [(k, v)]

/-- Python dict `notes.pop(k, None)`. -/
def notesErase (notes : List (String × String)) (k : String) :
    List (String × String) :=
  notes.filter (fun e => ¬ e.1 == k)

/-- The mutation of the `e` key handler (lines 404–407): a non-blank
entry stores the trimmed text under the alias name, a blank entry removes
the key. -/
def set_note (notes : List (String × String)) (name text : String) :
    List (String × String) :=
  if pyStrip text ≠ "" then notesInsert notes name (pyStrip text)
  else notesErase notes name

/-- One record of the overlay loop of `AppState.__init__` /
`AppState.reload` (lines 223–225 / 237–239): a stored note replaces the
parsed note; a record without a stored note is unchanged. -/
def overlayNote (notes : List (String × String)) (a : AliasRecord) :
    AliasRecord :=
  match notesLookup notes a.name with
  | some n => { a with note := n }
  | none => a

/-- The overlay loop itself. -/
def applyNotes (notes : List (String × String)) (as : List AliasRecord) :
    List AliasRecord :=
  as.map (overlayNote notes)

/-! ## Application state (source lines 218–252) -/

/-- Model of `AppState` field state (the prompt-toolkit widgets are external). -/
structure AppState where
  rc_path : String
  notes : List (String × String)
  aliases : List AliasRecord
  query : String
  filtered : List AliasRecord
  cursor : Int
  status : String
deriving Repr, DecidableEq

/-- Model of `AppState.__init__` (lines 219–229): note the cursor is set to `0`
unconditionally, even when `filtered` is empty. -/
def AppState.init (fs : FS) (env : Env) (disk : Option (List (String × String)))
    (rc_path : String) : AppState :=
  let notes := load_notes disk
  let aliases := applyNotes notes (collect_aliases fs env rc_path)
  { rc_path := rc_path
    notes := notes
    aliases := aliases
    query := ""
    filtered := filter_aliases aliases ""
    cursor := 0
    status := "Ready — press q to quit." }

/-- Model of `AppState.apply_filter` (lines 243–247). -/
def AppState.apply_filter (st : AppState) (q : String) : AppState :=
  let filtered := filter_aliases st.aliases q
  { st with
    query := q
    filtered := filtered
    cursor := if filtered.isEmpty then -1 else 0
    status := "Filtered: " ++ toString filtered.length ++ "/" ++
      toString st.aliases.length ++ " — press q to quit." }

/-- Model of `AppState.reload` (lines 234–241). -/
def AppState.reload (fs : FS) (env : Env) (disk : Option (List (String × String)))
    (st : AppState) : AppState :=
  let notes := load_notes disk
  let aliases := applyNotes notes (collect_aliases fs env st.rc_path)
  let st' := AppState.apply_filter
    { st with notes := notes, aliases := aliases } st.query
  { st' with status := "Reloaded — press q to quit." }

/-- Model of `AppState.current` (lines 249–252): the bounds-guarded selection. -/
def AppState.current (st : AppState) : Option AliasRecord :=
  if 0 ≤ st.cursor ∧ st.cursor < (st.filtered.length : Int) then
    st.filtered[st.cursor.toNat]?
  else none

/-! ## Startup (`main`, source lines 451–458) -/

/-- Model of `DEFAULT_RC = HOME / ".zshrc"`. -/
def DEFAULT_RC (env : Env) : String :=
  env.home ++ "/.zshrc"

/-- Lines 452–453: resolve the root config path from the environment. -/
def mainRcPath (env : Env) : String :=
  pathNorm (expanduser env (envGet env "ALIAS_RUNNER_RC" (DEFAULT_RC env)))

/-- Lines 451–458 of `main`, up to the construction of the initial state:
the root-file existence check is the only fatal exit (`SystemExit(1)`).
(Named `mainStartup` because `main` is reserved in Lean.) -/
def mainStartup (fs : FS) (env : Env) (disk : Option (List (String × String))) :
    Except (String × ℕ) AppState :=
  if existsFS fs (mainRcPath env) then
    .ok (AppState.init fs env disk (mainRcPath env))
  else
    .error ("Could not find " ++ mainRcPath env ++
      ". Set ALIAS_RUNNER_RC to your zshrc if needed.", 1)

/-! ## A fuel-indexed executable twin of the traversal loop

`collectLoop` is defined by well-founded recursion, which the kernel does
not reduce; the fuel-indexed twin below is structurally recursive and
agrees with it whenever it returns, so concrete traversals can be
evaluated by `decide`. -/

/-- Fuel-indexed version of `collectLoop`. -/
def collectLoopFuel (fs : FS) (env : Env) :
    ℕ → List String → List AliasRecord → List String → List String →
      Option (List AliasRecord × List String)
  | 0, _, _, _, _ => none
  | _ + 1, seen, merged, trace, [] => some (merged, trace)
  | fuel + 1, seen, merged, trace, cur :: rest =>
    if cur ∈ seen then collectLoopFuel fs env fuel seen merged trace rest
    else
      collectLoopFuel fs env fuel (cur :: seen)
        (((parse_aliases_from_file fs env cur).1).foldl dInsert merged)
        (trace ++ [cur])
        (rest ++ (parse_aliases_from_file fs env cur).2.flatMap (expandSrc fs))

theorem collectLoopFuel_sound (fs : FS) (env : Env) :
    ∀ (fuel : ℕ) (seen : List String) (merged : List AliasRecord)
      (trace : List String) (queue : List String)
      (r : List AliasRecord × List String),
      collectLoopFuel fs env fuel seen merged trace queue = some r →
      collectLoop fs env seen merged trace queue = r := by
  intro fuel
  induction fuel with
  | zero => intro seen merged trace queue r h; cases h
  | succ fuel ih =>
    intro seen merged trace queue r h
    rcases queue with _ | ⟨cur, rest⟩
    · rw [collectLoop]
      rw [collectLoopFuel] at h
      cases h
      rfl
    · rw [collectLoop]
      rw [collectLoopFuel] at h
      by_cases hmem : cur ∈ seen
      · rw [if_pos hmem] at h
        rw [dif_pos hmem]
        exact ih _ _ _ _ r h
      · rw [if_neg hmem] at h
        rw [dif_neg hmem]
        exact ih _ _ _ _ r h

/-! ## Claim C1: last-wins merge -/

theorem find?_map_replace_same (a : AliasRecord) :
    ∀ m : List AliasRecord, m.any (fun r => r.name == a.name) →
      (m.map (fun r => if r.name == a.name then a else r)).find?
        (fun r => r.name == a.name) = some a := by
  intro m
  induction m with
  | nil => intro h; cases h
  | cons r m' ih =>
    intro h
    by_cases hr : (r.name == a.name) = true
    · rw [List.map_cons, if_pos hr]
      simp only [List.find?_cons, beq_self_eq_true]
    · rw [Bool.not_eq_true] at hr
      rw [List.map_cons, if_neg (by simp [hr])]
      simp only [List.find?_cons, hr]
      apply ih
      rcases List.any_eq_true.mp h with ⟨x, hx, hpx⟩
      rcases List.mem_cons.mp hx with rfl | hx
      · rw [hr] at hpx; cases hpx
      · exact List.any_eq_true.mpr ⟨x, hx, hpx⟩

theorem find?_map_replace_other (a : AliasRecord) (name : String)
    (h : ¬ a.name = name) :
    ∀ m : List AliasRecord,
      (m.map (fun r => if r.name == a.name then a else r)).find?
        (fun r => r.name == name) = m.find? (fun r => r.name == name) := by
  have hna : (a.name == name) = false := by rw [beq_eq_false_iff_ne]; exact h
  intro m
  induction m with
  | nil => rfl
  | cons r m' ih =>
    by_cases hr : (r.name == a.name) = true
    · rw [List.map_cons, if_pos hr]
      have hrn : (r.name == name) = false := by
        rw [beq_eq_false_iff_ne, beq_iff_eq.mp hr]
        exact h
      simp only [List.find?_cons, hna, hrn]
      exact ih
    · rw [Bool.not_eq_true] at hr
      rw [List.map_cons, if_neg (by simp [hr])]
      by_cases hrn : (r.name == name) = true
      · simp only [List.find?_cons, hrn]
      · rw [Bool.not_eq_true] at hrn
        simp only [List.find?_cons, hrn]
        exact ih

theorem find?_append_last (a : AliasRecord) :
    ∀ m : List AliasRecord, ¬ m.any (fun r => r.name == a.name) = true →
      (m ++ [a]).find? (fun r => r.name == a.name) = some a := by
  intro m
  induction m with
  | nil =>
    intro _
    rw [List.nil_append]
    simp only [List.find?_cons, beq_self_eq_true]
  | cons r m' ih =>
    intro h
    have hr : (r.name == a.name) = false := by
      rcases hb : (r.name == a.name) with _ | _
      · rfl
      · exact absurd (by simp [hb]) h
    rw [List.cons_append]
    simp only [List.find?_cons, hr]
    exact ih (fun hp => h (by simp [hp]))

theorem find?_append_other (a : AliasRecord) (name : String)
    (h : ¬ a.name = name) :
    ∀ m : List AliasRecord,
      (m ++ [a]).find? (fun r => r.name == name) =
        m.find? (fun r => r.name == name) := by
  have hna : (a.name == name) = false := by rw [beq_eq_false_iff_ne]; exact h
  intro m
  induction m with
  | nil =>
    rw [List.nil_append]
    simp only [List.find?_cons, hna]
  | cons r m' ih =>
    rw [List.cons_append]
    by_cases hrn : (r.name == name) = true
    · simp only [List.find?_cons, hrn]
    · rw [Bool.not_eq_true] at hrn
      simp only [List.find?_cons, hrn]
      exact ih

theorem find?_dInsert_same (m : List AliasRecord) (a : AliasRecord) :
    (dInsert m a).find? (fun r => r.name == a.name) = some a := by
  unfold dInsert
  by_cases hany : m.any (fun r => r.name == a.name) = true
  · rw [if_pos hany]
    exact find?_map_replace_same a m hany
  · rw [if_neg hany]
    exact find?_append_last a m hany

theorem find?_dInsert_other (m : List AliasRecord) (a : AliasRecord)
    (name : String) (h : ¬ a.name = name) :
    (dInsert m a).find? (fun r => r.name == name) =
      m.find? (fun r => r.name == name) := by
  unfold dInsert
  by_cases hany : m.any (fun r => r.name == a.name) = true
  · rw [if_pos hany]
    exact find?_map_replace_other a name h m
  · rw [if_neg hany]
    exact find?_append_other a name h m

theorem mergeFold_find? (recs : List AliasRecord) (name : String) :
    (recs.foldl dInsert []).find? (fun r => r.name == name) =
      (recs.filter (fun r => r.name == name)).getLast? := by
  induction recs using List.reverseRecOn with
  | nil => rfl
  | append_singleton recs a ih =>
    rw [List.foldl_append, List.foldl_cons, List.foldl_nil, List.filter_append]
    by_cases h : a.name = name
    · subst h
      rw [show List.filter (fun r => r.name == a.name) [a] = [a] by simp]
      rw [List.getLast?_concat]
      exact find?_dInsert_same _ a
    · rw [show List.filter (fun r => r.name == name) [a] = [] by simp [h]]
      rw [List.append_nil, find?_dInsert_other _ a name h]
      exact ih

/-- File system of the override scenario: a root defining `alias x='a'`
and including a file that later defines `alias x='b' # noteB`. -/
def overrideFS : FS :=
  ⟨[("/h/rc", ["alias x='a'", "source /h/inc.zsh"]),
    ("/h/inc.zsh", ["alias x='b' # noteB"])], ["/h"]⟩

/-- An environment with no variables set. -/
def plainEnv : Env := ⟨[], "/home/u"⟩

/-- Claim C1: the MergeEngine folds left-to-right and an incoming record
for a present name fully replaces the previous one — the merged table maps
each name to the *last* record of that name in traversal order, whole
record included (body, note and source location).  In particular, in the
override scenario the merged record for `x` is the include file's record:
body `b`, note `noteB`, and the include file's location. -/
theorem claim_C1 :
    (∀ (recs : List AliasRecord) (name : String),
      (recs.foldl dInsert []).find? (fun r => r.name == name) =
        (recs.filter (fun r => r.name == name)).getLast?) ∧
    collect_aliases overrideFS plainEnv "/h/rc" =
      [⟨"x", "b", "noteB", "/h/inc.zsh", 1⟩] := by
  constructor
  · exact mergeFold_find?
  · have h := collectLoopFuel_sound overrideFS plainEnv 5 [] [] [] ["/h/rc"]
      ([⟨"x", "b", "noteB", "/h/inc.zsh", 1⟩], ["/h/rc", "/h/inc.zsh"])
      (by decide)
    rw [collect_aliases, h]
    decide

/-! ## Claim C2: token scoring -/

/-- Formalisation of the claim's words for comparison (claim C2): the
number of *distinct* lower-cased query tokens occurring as substrings of
the haystack, each counted at most once. -/
def specDistinctScore (a : AliasRecord) (needle : String) : ℕ :=
  ((tokens needle).dedup).countP (fun t => strHasSub (hayOf a) t)

/-- Counterexample to claim C2 as stated: for the record
`{gst, git status, ""}` and the query `"git git"`, the code's score is 2
(each repetition of the token counts), while the claim's distinct-token
score is 1. -/
theorem claim_C2_counterexample :
    match_score ⟨"gst", "git status", "", "/h/rc", 1⟩ "git git" = 2 ∧
    specDistinctScore ⟨"gst", "git status", "", "/h/rc", 1⟩ "git git" = 1 ∧
    (2 : ℕ) ≠ 1 := by
  refine ⟨by decide, by decide, by decide⟩

/-- Claim C2 as amended: for a non-blank query, the score is the sum over
the distinct matching query tokens of their multiplicity in the token
list — a repeated token contributes once *per repetition*, not at most
once. -/
theorem claim_C2 (a : AliasRecord) (q : String) (h : ¬ pyStrip q = "") :
    match_score a q =
      (((tokens q).dedup.filter (fun t => strHasSub (hayOf a) t)).map
        (fun t => (tokens q).count t)).sum := by
  rw [match_score, if_neg h]
  exact (List.sum_map_count_dedup_filter_eq_countP _ _).symm

/-- Witness for claim C2 at the record `{gst, git status, ""}` and query
`"git git"`. -/
theorem claim_C2_witness :
    ¬ pyStrip "git git" = "" ∧
    match_score ⟨"gst", "git status", "", "/h/rc", 1⟩ "git git" =
      (((tokens "git git").dedup.filter
          (fun t => strHasSub (hayOf ⟨"gst", "git status", "", "/h/rc", 1⟩) t)).map
        (fun t => (tokens "git git").count t)).sum :=
  ⟨by decide, claim_C2 ⟨"gst", "git status", "", "/h/rc", 1⟩ "git git" (by decide)⟩

/-! ## Claim C3: the startup root check -/

theorem subAux_append (t : List Char) :
    ∀ l₁ l₂ : List Char, subAux t l₂ = true → subAux t (l₁ ++ l₂) = true := by
  intro l₁
  induction l₁ with
  | nil => intro l₂ h; exact h
  | cons c l₁' ih =>
    intro l₂ h
    rw [List.cons_append, subAux]
    rw [ih l₂ h]
    simp

theorem strHasSub_mid (a b c : String) : strHasSub (a ++ b ++ c) b = true := by
  unfold strHasSub
  have htl : (a ++ b ++ c).toList = a.toList ++ (b.toList ++ c.toList) := by
    show ((a ++ b) ++ c).data = _
    rw [String.data_append, String.data_append, List.append_assoc]
    rfl
  rw [htl]
  apply subAux_append
  cases hb : b.toList ++ c.toList with
  | nil =>
    have : b.toList = [] := by
      rcases List.append_eq_nil.mp hb with ⟨h1, _⟩
      exact h1
    rw [subAux, this]
    simp
  | cons x rest =>
    rw [subAux, ← hb]
    rw [List.isPrefixOf_iff_prefix.mpr ⟨c.toList, rfl⟩]
    simp

/-- A file system in which the resolved root config path is a directory:
it exists but is not a regular file. -/
def dirRootFS : FS := ⟨[], ["/home/u/.zshrc"]⟩

/-- Counterexample to claim C3 as stated: with the root config path
resolving to an existing *directory*, `main` does not abort — the check at
line 454 tests only `exists()`, never `is_file()` — and the traversal then
yields an empty record set. -/
theorem claim_C3_counterexample :
    isFileFS dirRootFS (mainRcPath plainEnv) = false ∧
    existsFS dirRootFS (mainRcPath plainEnv) = true ∧
    mainStartup dirRootFS plainEnv none =
      .ok (AppState.init dirRootFS plainEnv none (mainRcPath plainEnv)) ∧
    collect_aliases dirRootFS plainEnv (mainRcPath plainEnv) = [] := by
  refine ⟨by decide, by decide, ?_, ?_⟩
  · rw [mainStartup, if_pos (by decide)]
  · have h := collectLoopFuel_sound dirRootFS plainEnv 3 [] [] []
      ["/home/u/.zshrc"] ([], ["/home/u/.zshrc"]) (by decide)
    rw [collect_aliases]
    rw [show mainRcPath plainEnv = "/home/u/.zshrc" from by decide, h]
    decide

/-- Claim C3 as amended: the process aborts (exit code 1, with a message
naming the path) exactly when the resolved root path does not exist; a
root that exists but is not a regular file does not abort (the parser then
treats it as contributing nothing).  The root check is the only abort in
the model. -/
theorem claim_C3 (fs : FS) (env : Env)
    (disk : Option (List (String × String))) :
    (existsFS fs (mainRcPath env) = false →
      mainStartup fs env disk =
        .error ("Could not find " ++ mainRcPath env ++
          ". Set ALIAS_RUNNER_RC to your zshrc if needed.", 1) ∧
      strHasSub ("Could not find " ++ mainRcPath env ++
        ". Set ALIAS_RUNNER_RC to your zshrc if needed.") (mainRcPath env) = true) ∧
    (existsFS fs (mainRcPath env) = true →
      mainStartup fs env disk = .ok (AppState.init fs env disk (mainRcPath env))) := by
  constructor
  · intro h
    constructor
    · rw [mainStartup, if_neg (by rw [h]; exact Bool.false_ne_true)]
    · exact strHasSub_mid "Could not find " (mainRcPath env)
        ". Set ALIAS_RUNNER_RC to your zshrc if needed."
  · intro h
    rw [mainStartup, if_pos h]

/-- Witness for claim C3: an empty file system (root missing, abort with
exit code 1) and the directory-root system (root present, no abort). -/
theorem claim_C3_witness :
    mainStartup ⟨[], []⟩ plainEnv none =
      .error ("Could not find " ++ mainRcPath plainEnv ++
        ". Set ALIAS_RUNNER_RC to your zshrc if needed.", 1) ∧
    mainStartup dirRootFS plainEnv none =
      .ok (AppState.init dirRootFS plainEnv none (mainRcPath plainEnv)) := by
  constructor
  · exact ((claim_C3 ⟨[], []⟩ plainEnv none).1 (by decide)).1
  · exact (claim_C3 dirRootFS plainEnv none).2 (by decide)

/-! ## Claim C4: glob include targets -/

/-- Formalisation of the claim's words for comparison (claim C4): expand
environment variables and the home marker *before* globbing, judging
absoluteness and taking the glob base and pattern from the expanded
target. -/
def specGlobResolve (fs : FS) (env : Env) (base_dir : String)
    (src_raw : String) : List String :=
  let ex := expandvars env (expanduser env src_raw)
  if isAbsStr ex then
    (stableSortBy pathLe
        (globFS fs (pathNorm (dirnameStr ex)) (basenameStr ex))).filter
      (fun g => isFileFS fs g)
  else
    (stableSortBy pathLe (globFS fs base_dir ex)).filter
      (fun g => isFileFS fs g)

/-- File system for the glob counterexample: the root at `/h/rc` includes
`~/d/*.sh`, and `/home/u/d/a.sh` exists. -/
def globFSx : FS :=
  ⟨[("/h/rc", ["source ~/d/*.sh"]), ("/home/u/d/a.sh", [])],
   ["/h", "/home/u", "/home/u/d"]⟩

/-- Counterexample to claim C4 as stated: for the glob target `~/d/*.sh`
the code globs the raw, unexpanded string relative to the including
directory (lines 83–91 use `src_raw`, not `expanded`), finding nothing,
while expansion-before-globbing would find `/home/u/d/a.sh`. -/
theorem claim_C4_counterexample :
    resolveSource globFSx plainEnv "/h" "~/d/*.sh" = [] ∧
    specGlobResolve globFSx plainEnv "/h" "~/d/*.sh" = ["/home/u/d/a.sh"] ∧
    (parse_aliases_from_file globFSx plainEnv "/h/rc").2 = [] := by
  refine ⟨by decide, by decide, by decide⟩

theorem pathLe_total (p q : String) : pathLe p q = true ∨ pathLe q p = true := by
  unfold pathLe
  rcases le_total p q with h | h
  · left; exact decide_eq_true h
  · right; exact decide_eq_true h

theorem pathLe_trans (p q r : String) (h1 : pathLe p q = true)
    (h2 : pathLe q r = true) : pathLe p r = true := by
  unfold pathLe at *
  exact decide_eq_true (le_trans (of_decide_eq_true h1) (of_decide_eq_true h2))

/-- Claim C4 as amended: a glob include target is resolved from the *raw*
(unexpanded) string — absoluteness, the parent-directory base for an
absolute target and the pattern all come from the raw text, with a
relative target globbed against the including file's directory; the
emitted matches are exactly the glob matches that are regular files, in
lexicographic order. -/
theorem claim_C4 (fs : FS) (env : Env) (base raw : String)
    (hg : hasGlobChar raw = true) :
    (∀ p, p ∈ resolveSource fs env base raw ↔
      isFileFS fs p = true ∧
        p ∈ globFS fs (if isAbsStr raw then pathNorm (dirnameStr raw) else base)
          (if isAbsStr raw then basenameStr raw else raw)) ∧
    (resolveSource fs env base raw).Pairwise (fun p q => pathLe p q = true) := by
  have hmain : resolveSource fs env base raw =
      (stableSortBy pathLe
        (globFS fs (if isAbsStr raw then pathNorm (dirnameStr raw) else base)
          (if isAbsStr raw then basenameStr raw else raw))).filter
        (fun g => isFileFS fs g) := by
    simp only [resolveSource, hg, if_true]
    by_cases habs : isAbsStr raw = true
    · rw [if_pos habs, if_pos habs, if_pos habs]
    · rw [if_neg habs, if_neg habs, if_neg habs]
  rw [hmain]
  constructor
  · intro p
    constructor
    · intro hp
      rcases List.mem_filter.mp hp with ⟨hm, hf⟩
      exact ⟨hf, (mem_stableSortBy _ _ _).mp hm⟩
    · intro ⟨hf, hm⟩
      exact List.mem_filter.mpr ⟨(mem_stableSortBy _ _ _).mpr hm, hf⟩
  · exact List.Pairwise.filter _
      (stableSortBy_sorted pathLe pathLe_total pathLe_trans _)

/-- Witness for claim C4 at the counterexample file system with the raw
absolute pattern `/home/u/d/*.sh`. -/
theorem claim_C4_witness :
    hasGlobChar "/home/u/d/*.sh" = true ∧
    (resolveSource globFSx plainEnv "/h" "/home/u/d/*.sh").Pairwise
      (fun p q => pathLe p q = true) ∧
    ("/home/u/d/a.sh" ∈ resolveSource globFSx plainEnv "/h" "/home/u/d/*.sh" ↔
      isFileFS globFSx "/home/u/d/a.sh" = true ∧
        "/home/u/d/a.sh" ∈ globFS globFSx
          (if isAbsStr "/home/u/d/*.sh" then pathNorm (dirnameStr "/home/u/d/*.sh")
           else "/h")
          (if isAbsStr "/home/u/d/*.sh" then basenameStr "/home/u/d/*.sh"
           else "/home/u/d/*.sh")) :=
  ⟨by decide,
   (claim_C4 globFSx plainEnv "/h" "/home/u/d/*.sh" (by decide)).2,
   (claim_C4 globFSx plainEnv "/h" "/home/u/d/*.sh" (by decide)).1 "/home/u/d/a.sh"⟩

/-! ## Claim C5: dedup granularity of the traversal -/

/-- File system in which one canonical file is referenced under two
spellings: absolutely with a `..` component, and relatively. -/
def dupSpellFS : FS :=
  ⟨[("/h/rc", ["source /h/d/../inc.sh", "source inc.sh"]),
    ("/h/inc.sh", ["alias i='1'"])], ["/h", "/h/d"]⟩

/-- Counterexample to claim C5 as stated: the visited-set check at
line 127 compares path *values*, not canonical paths — an absolute
spelling is kept unresolved by `expand_path`, so the canonical file
`/h/inc.sh` is dequeued and parsed twice under two spellings. -/
theorem claim_C5_counterexample :
    collectTrace dupSpellFS plainEnv "/h/rc" =
      ["/h/rc", "/h/d/../inc.sh", "/h/inc.sh"] ∧
    canon "/h/d/../inc.sh" = canon "/h/inc.sh" ∧
    "/h/d/../inc.sh" ≠ "/h/inc.sh" ∧
    ((["/h/rc", "/h/d/../inc.sh", "/h/inc.sh"] : List String).countP
      (fun p => canon p == canon "/h/inc.sh")) = 2 := by
  have h := collectLoopFuel_sound dupSpellFS plainEnv 6 [] [] [] ["/h/rc"]
    ([⟨"i", "1", "", "/h/inc.sh", 1⟩],
     ["/h/rc", "/h/d/../inc.sh", "/h/inc.sh"]) (by decide)
  refine ⟨?_, by decide, by decide, by decide⟩
  rw [collectTrace, h]

theorem collectLoop_trace_nodup (fs : FS) (env : Env) :
    ∀ (seen : List String) (merged : List AliasRecord) (trace : List String)
      (queue : List String), trace.Nodup → (∀ p ∈ trace, p ∈ seen) →
      (collectLoop fs env seen merged trace queue).2.Nodup := by
  intro seen merged trace queue
  induction seen, merged, trace, queue using collectLoop.induct fs env with
  | case1 seen merged trace =>
    intro h _
    rw [collectLoop]
    exact h
  | case2 seen merged trace cur rest hmem ih =>
    intro h hsub
    rw [collectLoop, dif_pos hmem]
    exact ih h hsub
  | case3 seen merged trace cur rest hmem ih =>
    intro h hsub
    rw [collectLoop, dif_neg hmem]
    apply ih
    · rw [List.nodup_append]
      refine ⟨h, by simp, ?_⟩
      intro p hp
      simp only [List.mem_singleton]
      intro he
      subst he
      exact hmem (hsub p hp)
    · intro p hp
      rcases List.mem_append.mp hp with hp | hp
      · exact List.mem_cons_of_mem cur (hsub p hp)
      · rw [List.mem_singleton.mp hp]
        exact List.mem_cons_self _ _

/-- Claim C5 as amended: the traversal dequeues and parses each exact
path *value* (as normalised by path construction) at most once; distinct
spellings that resolve to the same canonical file may each be parsed, as
the counterexample shows. -/
theorem claim_C5 : ∀ (fs : FS) (env : Env) (root : String),
    (collectTrace fs env root).Nodup := by
  intro fs env root
  exact collectLoop_trace_nodup fs env [] [] [] [root] (by simp) (by simp)

/-! ## Claim C7: the pending note buffer -/

theorem parseStep_plain (fs : FS) (env : Env) (path base : String) (n : ℕ)
    (buf : Option String) (l : String) (hm : matchSource l = none)
    (hn : isNoteLine l = false) (ha : matchAlias l = none) :
    parseStep fs env path base n buf l = ([], [], buf) := by
  simp only [parseStep, hm, ha]
  rw [if_neg (by simp [hn])]

theorem parseStep_note (fs : FS) (env : Env) (path base : String) (n : ℕ)
    (buf : Option String) (l : String) (hm : matchSource l = none)
    (hn : isNoteLine l = true) :
    parseStep fs env path base n buf l = ([], [], noteTextOf l) := by
  simp only [parseStep, hm]
  rw [if_pos (by simp [hn])]

theorem parseAux_plain (fs : FS) (env : Env) (path base : String) :
    ∀ (mid : List String) (n : ℕ) (buf : Option String) (rest : List String),
      (∀ l ∈ mid, matchSource l = none ∧ isNoteLine l = false ∧
        matchAlias l = none) →
      parseAux fs env path base n buf (mid ++ rest) =
        parseAux fs env path base (n + mid.length) buf rest := by
  intro mid
  induction mid with
  | nil => intro n buf rest _; simp
  | cons l mid' ih =>
    intro n buf rest hmid
    obtain ⟨h1, h2, h3⟩ := hmid l (List.mem_cons_self l mid')
    rw [List.cons_append, parseAux_cons,
      parseStep_plain fs env path base n buf l h1 h2 h3]
    simp only [List.nil_append]
    rw [ih (n + 1) buf rest (fun x hx => hmid x (List.mem_cons_of_mem l hx))]
    rw [show n + 1 + mid'.length = n + (mid'.length + 1) by omega]
    rfl

/-- Claim C7: a note-comment line (over)writes the pending note buffer,
which survives any number of non-matching lines until an alias line
consumes it; an alias line reached with a non-empty buffer gets
`buffer | trailing` (or just the buffer when there is no trailing
comment) as its note and clears the buffer, while with an empty buffer the
note is the stripped trailing comment alone (empty if none). -/
theorem claim_C7 (fs : FS) (env : Env) (path base : String) :
    (∀ (n : ℕ) (buf : Option String) (ℓ : String) (mid rest : List String),
      matchSource ℓ = none → isNoteLine ℓ = true →
      (∀ l ∈ mid, matchSource l = none ∧ isNoteLine l = false ∧
        matchAlias l = none) →
      parseAux fs env path base n buf (ℓ :: (mid ++ rest)) =
        parseAux fs env path base (n + 1 + mid.length) (noteTextOf ℓ) rest) ∧
    (∀ (n : ℕ) (line : String) (rest : List String) (name : String) (qc : Char)
        (body : String) (trailing : Option String) (b : String),
      matchSource line = none → isNoteLine line = false →
      matchAlias line = some (name, qc, body, trailing) → b ≠ "" →
      parseAux fs env path base n (some b) (line :: rest) =
        ⟨⟨name, body,
            b ++ (if pyStrip (trailing.getD "") ≠ ""
              then " | " ++ pyStrip (trailing.getD "") else ""),
            path, n⟩ ::
            (parseAux fs env path base (n + 1) none rest).aliases,
          (parseAux fs env path base (n + 1) none rest).sources,
          (parseAux fs env path base (n + 1) none rest).buf⟩) ∧
    (∀ (n : ℕ) (line : String) (rest : List String) (name : String) (qc : Char)
        (body : String) (trailing : Option String),
      matchSource line = none → isNoteLine line = false →
      matchAlias line = some (name, qc, body, trailing) →
      parseAux fs env path base n none (line :: rest) =
        ⟨⟨name, body, pyStrip (trailing.getD ""), path, n⟩ ::
            (parseAux fs env path base (n + 1) none rest).aliases,
          (parseAux fs env path base (n + 1) none rest).sources,
          (parseAux fs env path base (n + 1) none rest).buf⟩) := by
  have hnote0 : ∀ trailing : Option String,
      (match trailing with | some t => pyStrip t | none => "") =
        pyStrip (trailing.getD "") := by
    intro trailing
    cases trailing <;> rfl
  refine ⟨?_, ?_, ?_⟩
  · intro n buf ℓ mid rest hm hn hmid
    rw [parseAux_cons, parseStep_note fs env path base n buf ℓ hm hn]
    simp only [List.nil_append]
    rw [parseAux_plain fs env path base mid (n + 1) (noteTextOf ℓ) rest hmid]
  · intro n line rest name qc body trailing b hm hn ha hb
    rw [parseAux_cons]
    have hstep : parseStep fs env path base n (some b) line =
        ([⟨name, body,
            b ++ (if pyStrip (trailing.getD "") ≠ ""
              then " | " ++ pyStrip (trailing.getD "") else ""), path, n⟩],
          [], none) := by
      simp only [parseStep, hm, ha]
      rw [if_neg (by simp [hn])]
      have hbt : (b != "") = true := bne_iff_ne.mpr hb
      simp only [hnote0 trailing, hbt, if_true, Option.getD_some]
    rw [hstep]
    rfl
  · intro n line rest name qc body trailing hm hn ha
    rw [parseAux_cons]
    have hstep : parseStep fs env path base n none line =
        ([⟨name, body, pyStrip (trailing.getD ""), path, n⟩], [], none) := by
      simp only [parseStep, hm, ha]
      rw [if_neg (by simp [hn])]
      simp only [hnote0 trailing]
      simp
    rw [hstep]
    rfl

/-- Witness for claim C7 on concrete lines: a note comment, two
non-matching lines, then alias lines with and without a pending buffer. -/
theorem claim_C7_witness :
    parseAux ⟨[], []⟩ plainEnv "/h/rc" "/h" 1 none
        ("# note: tip" :: (["", "echo hi"] ++ ["alias g='x' # t"])) =
      parseAux ⟨[], []⟩ plainEnv "/h/rc" "/h" 4 (some "tip")
        ["alias g='x' # t"] ∧
    parseAux ⟨[], []⟩ plainEnv "/h/rc" "/h" 4 (some "tip")
        ["alias g='x' # t"] =
      ⟨[⟨"g", "x", "tip | t", "/h/rc", 4⟩], [], none⟩ ∧
    parseAux ⟨[], []⟩ plainEnv "/h/rc" "/h" 9 none ["alias h2='y'"] =
      ⟨[⟨"h2", "y", "", "/h/rc", 9⟩], [], none⟩ := by
  refine ⟨?_, ?_, ?_⟩
  · exact (claim_C7 ⟨[], []⟩ plainEnv "/h/rc" "/h").1 1 none "# note: tip"
      ["", "echo hi"] ["alias g='x' # t"] (by decide) (by decide) (by decide)
  · rw [(claim_C7 ⟨[], []⟩ plainEnv "/h/rc" "/h").2.1 4 "alias g='x' # t" []
      "g" '\'' "x" (some "t") "tip" (by decide) (by decide) (by decide)
      (by decide)]
    decide
  · rw [(claim_C7 ⟨[], []⟩ plainEnv "/h/rc" "/h").2.2 9 "alias h2='y'" []
      "h2" '\'' "y" none (by decide) (by decide) (by decide)]
    decide

/-! ## Claim C8: the filter pipeline -/

theorem scoredLe_total (x y : ℕ × AliasRecord) :
    scoredLe x y = true ∨ scoredLe y x = true := by
  unfold scoredLe
  rcases Nat.lt_trichotomy x.1 y.1 with h | h | h
  · right
    rw [decide_eq_true h]
    simp
  · rcases le_total (pyLower x.2.name) (pyLower y.2.name) with hs | hs
    · left
      rw [decide_eq_true h, decide_eq_true hs]
      simp
    · right
      rw [decide_eq_true h.symm, decide_eq_true hs]
      simp
  · left
    rw [decide_eq_true h]
    simp

theorem scoredLe_trans (x y z : ℕ × AliasRecord) (h1 : scoredLe x y = true)
    (h2 : scoredLe y z = true) : scoredLe x z = true := by
  unfold scoredLe at *
  rw [Bool.or_eq_true, Bool.and_eq_true] at h1 h2
  rw [Bool.or_eq_true, Bool.and_eq_true]
  rcases h1 with h1 | ⟨h1e, h1s⟩ <;> rcases h2 with h2 | ⟨h2e, h2s⟩
  · left
    exact decide_eq_true (lt_trans (of_decide_eq_true h2) (of_decide_eq_true h1))
  · left
    rw [of_decide_eq_true h2e] at h1
    exact h1
  · left
    rw [← of_decide_eq_true h1e] at h2
    exact h2
  · right
    refine ⟨?_, ?_⟩
    · rw [of_decide_eq_true h1e, of_decide_eq_true h2e]
      simp
    · exact decide_eq_true
        (le_trans (of_decide_eq_true h1s) (of_decide_eq_true h2s))

/-- Claim C8: the filter output contains exactly the records of positive
score — all records when the query is blank — sorted descending by score
with ascending case-insensitive name as tie-break, and re-running with the
same inputs yields the identical sequence. -/
theorem claim_C8 : ∀ (items : List AliasRecord) (q : String),
    (filter_aliases items q).Perm
      (items.filter (fun a => match_score a q > 0 ∨ pyStrip q = "")) ∧
    (filter_aliases items q).Pairwise (fun a b =>
      match_score b q < match_score a q ∨
        (match_score a q = match_score b q ∧
          pyLower a.name ≤ pyLower b.name)) ∧
    filter_aliases items q = filter_aliases items q := by
  intro items q
  refine ⟨?_, ?_, rfl⟩
  · show (((stableSortBy scoredLe
        (items.map (fun a => (match_score a q, a)))).filter
          (fun sa => sa.1 > 0 ∨ pyStrip q = "")).map Prod.snd).Perm _
    have hperm := (stableSortBy_perm scoredLe
      (items.map (fun a => (match_score a q, a)))).filter
      (fun sa => decide (sa.1 > 0 ∨ pyStrip q = ""))
    refine (hperm.map Prod.snd).trans ?_
    rw [List.filter_map]
    rw [List.map_map]
    have h1 : (List.filter
        ((fun sa : ℕ × AliasRecord => decide (sa.1 > 0 ∨ pyStrip q = "")) ∘
          (fun a => (match_score a q, a))) items) =
        items.filter (fun a => match_score a q > 0 ∨ pyStrip q = "") := rfl
    rw [h1]
    have h2 : (Prod.snd ∘ fun a : AliasRecord => (match_score a q, a)) = id := rfl
    rw [h2, List.map_id]
  · have hsorted := stableSortBy_sorted scoredLe scoredLe_total scoredLe_trans
      (items.map (fun a => (match_score a q, a)))
    have hfil : (List.filter (fun sa : ℕ × AliasRecord =>
        decide (sa.1 > 0 ∨ pyStrip q = ""))
        (stableSortBy scoredLe (items.map (fun a => (match_score a q, a))))).Pairwise
        (fun a b => scoredLe a b = true) :=
      List.Pairwise.filter _ hsorted
    show ((List.filter _ _).map Prod.snd).Pairwise _
    rw [List.pairwise_map]
    have hinv : ∀ sa ∈ (stableSortBy scoredLe
        (items.map (fun a => (match_score a q, a)))),
        sa.1 = match_score sa.2 q := by
      intro sa hsa
      have := (stableSortBy_perm scoredLe _).mem_iff.mp hsa
      rcases List.mem_map.mp this with ⟨a, _, rfl⟩
      rfl
    refine hfil.imp_of_mem ?_
    intro sa sb hsa hsb hle
    have h1 := hinv sa (List.mem_of_mem_filter hsa)
    have h2 := hinv sb (List.mem_of_mem_filter hsb)
    unfold scoredLe at hle
    rw [Bool.or_eq_true, Bool.and_eq_true] at hle
    rcases hle with hle | ⟨hle1, hle2⟩
    · left
      rw [← h1, ← h2]
      exact of_decide_eq_true hle
    · right
      exact ⟨by rw [← h1, ← h2]; exact of_decide_eq_true hle1,
        of_decide_eq_true hle2⟩

/-! ## Claim C9: annotation round-trip -/

theorem notesLookup_insert_self :
    ∀ (notes : List (String × String)) (k v : String),
      notesLookup (notesInsert notes k v) k = some v := by
  intro notes k v
  unfold notesInsert
  by_cases hany : notes.any (fun e => e.1 == k) = true
  · rw [if_pos hany]
    revert hany
    induction notes with
    | nil => intro hany; simp at hany
    | cons e rest ih =>
      intro hany
      by_cases he : (e.1 == k) = true
      · rw [List.map_cons, if_pos he]
        unfold notesLookup
        simp only [List.find?_cons, beq_self_eq_true]
        rfl
      · rw [Bool.not_eq_true] at he
        rw [List.map_cons, if_neg (by simp [he])]
        unfold notesLookup at ih ⊢
        simp only [List.find?_cons, he]
        apply ih
        rcases List.any_eq_true.mp hany with ⟨x, hx, hpx⟩
        rcases List.mem_cons.mp hx with rfl | hx
        · rw [he] at hpx; cases hpx
        · exact List.any_eq_true.mpr ⟨x, hx, hpx⟩
  · rw [if_neg hany]
    induction notes with
    | nil =>
      unfold notesLookup
      simp only [List.nil_append, List.find?_cons, beq_self_eq_true]
      rfl
    | cons e rest ih =>
      have he : (e.1 == k) = false := by
        rcases hb : (e.1 == k) with _ | _
        · rfl
        · exact absurd (by simp [hb]) hany
      rw [List.cons_append]
      unfold notesLookup at ih ⊢
      simp only [List.find?_cons, he]
      exact ih (fun hp => hany (by simp [hp]))

theorem notesLookup_erase_self :
    ∀ (notes : List (String × String)) (k : String),
      notesLookup (notesErase notes k) k = none := by
  intro notes k
  induction notes with
  | nil => rfl
  | cons e rest ih =>
    unfold notesErase at ih ⊢
    rw [List.filter_cons]
    by_cases he : (e.1 == k) = true
    · rw [if_neg (by simp [he])]
      exact ih
    · rw [Bool.not_eq_true] at he
      rw [if_pos (by simp [he])]
      unfold notesLookup at ih ⊢
      simp only [List.find?_cons, he]
      exact ih

/-- Claim C9: after setting a note for `name` to a non-blank `text`,
persisting the store and reloading from scratch, the overlaid record for
`name` carries exactly the trimmed text; setting a blank text removes the
key, so after reload the record keeps its parsed note.  The store
round-trips through persistence unchanged, and a reload overlays every
collected record through `overlayNote`. -/
theorem claim_C9 (notes : List (String × String)) (name text : String)
    (a : AliasRecord) (ha : a.name = name) :
    load_notes (save_notes (set_note notes name text)) = set_note notes name text ∧
    (¬ pyStrip text = "" →
      overlayNote (load_notes (save_notes (set_note notes name text))) a =
        { a with note := pyStrip text }) ∧
    (pyStrip text = "" →
      overlayNote (load_notes (save_notes (set_note notes name text))) a = a) ∧
    (∀ (fs : FS) (env : Env) (root : String),
      applyNotes (set_note notes name text) (collect_aliases fs env root) =
        (collect_aliases fs env root).map
          (overlayNote (set_note notes name text))) := by
  refine ⟨rfl, ?_, ?_, fun _ _ _ => rfl⟩
  · intro h
    show overlayNote (set_note notes name text) a = _
    unfold overlayNote
    rw [ha]
    unfold set_note
    rw [if_pos h, notesLookup_insert_self]
  · intro h
    show overlayNote (set_note notes name text) a = a
    unfold overlayNote
    rw [ha]
    unfold set_note
    rw [if_neg (by simp [h]), notesLookup_erase_self]

/-- Witness for claim C9 on a concrete store and record. -/
theorem claim_C9_witness :
    overlayNote (load_notes (save_notes
        (set_note [("x", "old")] "x" "  new  "))) ⟨"x", "b", "parsed", "/h/rc", 1⟩ =
      ⟨"x", "b", "new", "/h/rc", 1⟩ ∧
    overlayNote (load_notes (save_notes
        (set_note [("x", "old")] "x" "   "))) ⟨"x", "b", "parsed", "/h/rc", 1⟩ =
      ⟨"x", "b", "parsed", "/h/rc", 1⟩ := by
  constructor
  · rw [(claim_C9 [("x", "old")] "x" "  new  " ⟨"x", "b", "parsed", "/h/rc", 1⟩
      rfl).2.1 (by decide)]
    decide
  · rw [(claim_C9 [("x", "old")] "x" "   " ⟨"x", "b", "parsed", "/h/rc", 1⟩
      rfl).2.2.1 (by decide)]

/-! ## Claim C10: the bounds-guarded selection accessor -/

/-- Claim C10: the current-selection accessor yields a record exactly when
the cursor lies in `[0, |filtered|)` — the record at that index, accessed
under a proof of the bound — and the no-selection value otherwise; the
initial state sets cursor 0 unconditionally, and with an empty filtered
sequence its accessor still yields no selection rather than an
out-of-bounds access. -/
theorem claim_C10 : ∀ st : AppState,
    ((0 ≤ st.cursor ∧ st.cursor < (st.filtered.length : Int)) →
      ∃ h : st.cursor.toNat < st.filtered.length,
        st.current = some (st.filtered.get ⟨st.cursor.toNat, h⟩)) ∧
    (¬ (0 ≤ st.cursor ∧ st.cursor < (st.filtered.length : Int)) →
      st.current = none) ∧
    (∀ (fs : FS) (env : Env) (disk : Option (List (String × String)))
        (rc : String), (AppState.init fs env disk rc).cursor = 0) ∧
    (∀ (fs : FS) (env : Env) (disk : Option (List (String × String)))
        (rc : String), (AppState.init fs env disk rc).filtered = [] →
      (AppState.init fs env disk rc).current = none) := by
  intro st
  refine ⟨?_, ?_, fun _ _ _ _ => rfl, ?_⟩
  · intro h
    have hlt : st.cursor.toNat < st.filtered.length := by omega
    refine ⟨hlt, ?_⟩
    rw [AppState.current, if_pos h, List.getElem?_eq_getElem hlt]
    rw [List.get_eq_getElem]
  · intro h
    rw [AppState.current, if_neg h]
  · intro fs env disk rc hf
    rw [AppState.current, if_neg]
    rw [show (AppState.init fs env disk rc).cursor = 0 from rfl, hf]
    simp

/-- Witness for claim C10: a literal state with one filtered record and
cursor `0` selects it; cursor `-1` (the empty-filter sentinel) and the
initial state over an empty root both yield no selection. -/
theorem claim_C10_witness :
    AppState.current ⟨"/h/rc", [], [⟨"x", "b", "", "/h/rc", 1⟩], "",
        [⟨"x", "b", "", "/h/rc", 1⟩], 0, "s"⟩ =
      some ⟨"x", "b", "", "/h/rc", 1⟩ ∧
    AppState.current ⟨"/h/rc", [], [⟨"x", "b", "", "/h/rc", 1⟩], "zzz",
        [], -1, "s"⟩ = none ∧
    (AppState.init ⟨[], []⟩ plainEnv none "/nope").current = none := by
  refine ⟨?_, ?_, ?_⟩
  · obtain ⟨h, he⟩ := (claim_C10 ⟨"/h/rc", [], [⟨"x", "b", "", "/h/rc", 1⟩], "",
        [⟨"x", "b", "", "/h/rc", 1⟩], 0, "s"⟩).1 (by constructor <;> decide)
    rw [he]
    rfl
  · exact (claim_C10 ⟨"/h/rc", [], [⟨"x", "b", "", "/h/rc", 1⟩], "zzz",
      [], -1, "s"⟩).2.1 (by intro h; exact absurd h.1 (by decide))
  · apply (claim_C10 (AppState.init ⟨[], []⟩ plainEnv none "/nope")).2.2.2
    have h := collectLoopFuel_sound ⟨[], []⟩ plainEnv 2 [] [] [] ["/nope"]
      ([], ["/nope"]) (by decide)
    show filter_aliases (applyNotes (load_notes none)
      (collect_aliases ⟨[], []⟩ plainEnv "/nope")) "" = []
    rw [collect_aliases, h]
    decide

/-! ## Claim C6: cycle safety

Termination of the traversal on cyclic include graphs is built into the
total definition of `collectLoop`; what remains is to compare the cyclic
record set with the acyclic one.  `stripLine` erases the recorded line
numbers — removing an include line shifts later records' line numbers, so
equality only holds up to them. -/

/-- Erase the source-line metadata of a record. -/
def stripLine (r : AliasRecord) : AliasRecord :=
  { r with line := 0 }

theorem parseStep_fs_indep (fs fs' : FS) (env : Env) (path base : String)
    (n : ℕ) (buf : Option String) (l : String) (hm : matchSource l = none) :
    parseStep fs env path base n buf l = parseStep fs' env path base n buf l := by
  simp only [parseStep, hm]

theorem parseAux_fs_indep (fs fs' : FS) (env : Env) (path base : String) :
    ∀ (lines : List String), (∀ l ∈ lines, matchSource l = none) →
      ∀ (n : ℕ) (buf : Option String),
      parseAux fs env path base n buf lines =
        parseAux fs' env path base n buf lines := by
  intro lines
  induction lines with
  | nil => intro _ n buf; rfl
  | cons l rest ih =>
    intro h n buf
    rw [parseAux_cons, parseAux_cons,
      parseStep_fs_indep fs fs' env path base n buf l
        (h l (List.mem_cons_self l rest)),
      ih (fun x hx => h x (List.mem_cons_of_mem l hx))]

theorem parseAux_no_source (fs : FS) (env : Env) (path base : String) :
    ∀ (lines : List String), (∀ l ∈ lines, matchSource l = none) →
      ∀ (n : ℕ) (buf : Option String),
      (parseAux fs env path base n buf lines).sources = [] := by
  intro lines
  induction lines with
  | nil => intro _ n buf; rfl
  | cons l rest ih =>
    intro h n buf
    rw [parseAux_cons]
    have hm := h l (List.mem_cons_self l rest)
    have hstep : (parseStep fs env path base n buf l).2.1 = [] := by
      rcases hnl : isNoteLine l with _ | _
      · rcases hal : matchAlias l with _ | ⟨⟨nm, qc, body, trailing⟩⟩
        · rw [parseStep_plain fs env path base n buf l hm hnl hal]
        · simp only [parseStep, hm, hal, hnl, Bool.false_eq_true, if_false]
      · rw [parseStep_note fs env path base n buf l hm hnl]
    show (parseStep fs env path base n buf l).2.1 ++ _ = []
    rw [hstep, List.nil_append]
    exact ih (fun x hx => h x (List.mem_cons_of_mem l hx)) _ _

theorem parseAux_append (fs : FS) (env : Env) (path base : String) :
    ∀ (xs ys : List String) (n : ℕ) (buf : Option String),
      parseAux fs env path base n buf (xs ++ ys) =
        ⟨(parseAux fs env path base n buf xs).aliases ++
            (parseAux fs env path base (n + xs.length)
              (parseAux fs env path base n buf xs).buf ys).aliases,
          (parseAux fs env path base n buf xs).sources ++
            (parseAux fs env path base (n + xs.length)
              (parseAux fs env path base n buf xs).buf ys).sources,
          (parseAux fs env path base (n + xs.length)
            (parseAux fs env path base n buf xs).buf ys).buf⟩ := by
  intro xs
  induction xs with
  | nil =>
    intro ys n buf
    simp only [List.nil_append, List.length_nil, Nat.add_zero]
    rfl
  | cons x xs' ih =>
    intro ys n buf
    rw [List.cons_append, parseAux_cons, parseAux_cons,
      ih ys (n + 1) (parseStep fs env path base n buf x).2.2]
    simp only [List.length_cons, List.append_assoc]
    rw [show n + 1 + xs'.length = n + (xs'.length + 1) by omega]

theorem parseStep_strip (fs : FS) (env : Env) (path base : String)
    (n m : ℕ) (buf : Option String) (l : String) :
    (parseStep fs env path base n buf l).1.map stripLine =
      (parseStep fs env path base m buf l).1.map stripLine ∧
    (parseStep fs env path base n buf l).2.1 =
      (parseStep fs env path base m buf l).2.1 ∧
    (parseStep fs env path base n buf l).2.2 =
      (parseStep fs env path base m buf l).2.2 := by
  rcases hm : matchSource l with _ | raw
  · rcases hnl : isNoteLine l with _ | _
    · rcases hal : matchAlias l with _ | ⟨⟨nm, qc, body, trailing⟩⟩
      · rw [parseStep_plain fs env path base n buf l hm hnl hal,
          parseStep_plain fs env path base m buf l hm hnl hal]
        exact ⟨rfl, rfl, rfl⟩
      · simp [parseStep, hm, hal, hnl, stripLine]
    · rw [parseStep_note fs env path base n buf l hm hnl,
        parseStep_note fs env path base m buf l hm hnl]
      exact ⟨rfl, rfl, rfl⟩
  · simp [parseStep, hm]

theorem parseAux_strip (fs : FS) (env : Env) (path base : String) :
    ∀ (lines : List String) (n m : ℕ) (buf : Option String),
      (parseAux fs env path base n buf lines).aliases.map stripLine =
        (parseAux fs env path base m buf lines).aliases.map stripLine ∧
      (parseAux fs env path base n buf lines).sources =
        (parseAux fs env path base m buf lines).sources ∧
      (parseAux fs env path base n buf lines).buf =
        (parseAux fs env path base m buf lines).buf := by
  intro lines
  induction lines with
  | nil => intro n m buf; exact ⟨rfl, rfl, rfl⟩
  | cons l rest ih =>
    intro n m buf
    obtain ⟨hs1, hs2, hs3⟩ := parseStep_strip fs env path base n m buf l
    rw [parseAux_cons, parseAux_cons]
    obtain ⟨ih1, ih2, ih3⟩ := ih (n + 1) (m + 1)
      (parseStep fs env path base m buf l).2.2
    refine ⟨?_, ?_, ?_⟩
    · simp only [List.map_append]
      rw [hs1, hs3, ih1]
    · simp only []
      rw [hs2, hs3, ih2]
    · simp only []
      rw [hs3, ih3]

theorem parseStep_fs_free (fs fs' : FS) (env : Env) (path base : String)
    (n : ℕ) (buf : Option String) (l : String) :
    (parseStep fs env path base n buf l).1 = (parseStep fs' env path base n buf l).1 ∧
    (parseStep fs env path base n buf l).2.2 =
      (parseStep fs' env path base n buf l).2.2 := by
  rcases hm : matchSource l with _ | raw
  · rcases hnl : isNoteLine l with _ | _
    · rcases hal : matchAlias l with _ | ⟨⟨nm, qc, body, trailing⟩⟩
      · simp [parseStep, hm, hal, hnl]
      · simp [parseStep, hm, hal, hnl]
    · simp [parseStep, hm, hnl]
  · simp [parseStep, hm]

theorem parseAux_fs_free (fs fs' : FS) (env : Env) (path base : String) :
    ∀ (lines : List String) (n : ℕ) (buf : Option String),
      (parseAux fs env path base n buf lines).aliases =
        (parseAux fs' env path base n buf lines).aliases ∧
      (parseAux fs env path base n buf lines).buf =
        (parseAux fs' env path base n buf lines).buf := by
  intro lines
  induction lines with
  | nil => intro n buf; exact ⟨rfl, rfl⟩
  | cons l rest ih =>
    intro n buf
    obtain ⟨h1, h2⟩ := parseStep_fs_free fs fs' env path base n buf l
    rw [parseAux_cons, parseAux_cons]
    obtain ⟨ih1, ih2⟩ := ih (n + 1) (parseStep fs' env path base n buf l).2.2
    constructor
    · show (parseStep fs env path base n buf l).1 ++ _ =
        (parseStep fs' env path base n buf l).1 ++ _
      rw [h1, h2, ih1]
    · show (parseAux fs env path base (n + 1)
          (parseStep fs env path base n buf l).2.2 rest).buf = _
      rw [h2, ih2]

theorem parseAux_mid_source (fs fs' : FS) (env : Env) (path base : String)
    (A B : List String) (l raw : String) (hm : matchSource l = some raw)
    (hA : ∀ x ∈ A, matchSource x = none) (hB : ∀ x ∈ B, matchSource x = none)
    (n : ℕ) (buf : Option String) :
    (parseAux fs env path base n buf (A ++ l :: B)).aliases.map stripLine =
      (parseAux fs' env path base n buf (A ++ B)).aliases.map stripLine ∧
    (parseAux fs env path base n buf (A ++ l :: B)).sources =
      resolveSource fs env base (pyStrip raw) ∧
    (parseAux fs' env path base n buf (A ++ B)).sources = [] := by
  have hAeq : parseAux fs env path base n buf A = parseAux fs' env path base n buf A :=
    parseAux_fs_indep fs fs' env path base A hA n buf
  have hstep : ∀ (b : Option String), parseStep fs env path base (n + A.length) b l =
      ([], resolveSource fs env base (pyStrip raw), b) := by
    intro b
    simp only [parseStep, hm]
  refine ⟨?_, ?_, ?_⟩
  · rw [parseAux_append, parseAux_append]
    simp only [List.map_append]
    rw [hAeq]
    congr 1
    rw [parseAux_cons, hstep _]
    simp only [List.nil_append]
    have hBeq : parseAux fs env path base (n + A.length + 1)
        (parseAux fs' env path base n buf A).buf B =
        parseAux fs' env path base (n + A.length + 1)
          (parseAux fs' env path base n buf A).buf B :=
      parseAux_fs_indep fs fs' env path base B hB _ _
    rw [hBeq]
    exact (parseAux_strip fs' env path base B (n + A.length + 1) (n + A.length)
      (parseAux fs' env path base n buf A).buf).1
  · rw [parseAux_append]
    rw [parseAux_no_source fs env path base A hA n buf, List.nil_append]
    rw [parseAux_cons, hstep _]
    simp only []
    rw [parseAux_no_source fs env path base B hB _ _, List.append_nil]
  · rw [parseAux_append]
    rw [parseAux_no_source fs' env path base A hA n buf, List.nil_append]
    exact parseAux_no_source fs' env path base B hB _ _

theorem dInsert_map_stripLine (m : List AliasRecord) (a : AliasRecord) :
    (dInsert m a).map stripLine = dInsert (m.map stripLine) (stripLine a) := by
  unfold dInsert
  have hany : (m.map stripLine).any (fun r => r.name == (stripLine a).name) =
      m.any (fun r => r.name == a.name) := by
    rw [List.any_map]
    rfl
  rw [hany]
  by_cases h : m.any (fun r => r.name == a.name) = true
  · rw [if_pos h, if_pos h, List.map_map, List.map_map]
    apply List.map_congr_left
    intro r _
    show stripLine (if r.name == a.name then a else r) =
      (if (stripLine r).name == (stripLine a).name then stripLine a else stripLine r)
    by_cases hr : (r.name == a.name) = true <;> simp [stripLine, hr]
  · rw [if_neg h, if_neg h, List.map_append]
    rfl

theorem foldl_dInsert_stripLine (recs : List AliasRecord) :
    ∀ (m : List AliasRecord),
      (recs.foldl dInsert m).map stripLine =
        (recs.map stripLine).foldl dInsert (m.map stripLine) := by
  induction recs with
  | nil => intro m; rfl
  | cons r rest ih =>
    intro m
    rw [List.foldl_cons, List.map_cons, List.foldl_cons, ih,
      dInsert_map_stripLine]

theorem stableSortBy_stripLine (l : List AliasRecord) :
    stableSortBy recNameLe (l.map stripLine) =
      (stableSortBy recNameLe l).map stripLine :=
  stableSortBy_map recNameLe recNameLe stripLine (fun a b => rfl) l

/-- Self-include cycle: the root sources itself among otherwise
include-free lines. -/
def c6fs1 (A B : List String) (others : List (String × List String)) : FS :=
  ⟨("/h/rc", A ++ "source /h/rc" :: B) :: others, ["/h"]⟩

/-- The acyclic variant of `c6fs1` with the self-include line removed. -/
def c6fs2 (A B : List String) (others : List (String × List String)) : FS :=
  ⟨("/h/rc", A ++ B) :: others, ["/h"]⟩

/-- Two-file cycle: the root sources `/h/b.zsh`, which sources the root
back. -/
def c6fs3 (RA RB C D : List String) (others : List (String × List String)) : FS :=
  ⟨("/h/rc", RA ++ "source /h/b.zsh" :: RB) ::
    ("/h/b.zsh", C ++ "source /h/rc" :: D) :: others, ["/h"]⟩

/-- The acyclic variant of `c6fs3` with the back-include removed. -/
def c6fs4 (RA RB C D : List String) (others : List (String × List String)) : FS :=
  ⟨("/h/rc", RA ++ "source /h/b.zsh" :: RB) ::
    ("/h/b.zsh", C ++ D) :: others, ["/h"]⟩

theorem c6_family1 (env : Env) (A B : List String)
    (others : List (String × List String))
    (hAB : ∀ l ∈ A ++ B, matchSource l = none) :
    (collect_aliases (c6fs1 A B others) env "/h/rc").map stripLine =
      (collect_aliases (c6fs2 A B others) env "/h/rc").map stripLine := by
  have hA : ∀ l ∈ A, matchSource l = none :=
    fun l hl => hAB l (List.mem_append_left _ hl)
  have hB : ∀ l ∈ B, matchSource l = none :=
    fun l hl => hAB l (List.mem_append_right _ hl)
  have hfile1 : isFileFS (c6fs1 A B others) "/h/rc" = true := by
    simp [isFileFS, c6fs1]
  have hfile2 : isFileFS (c6fs2 A B others) "/h/rc" = true := by
    simp [isFileFS, c6fs2]
  have hex1 : existsFS (c6fs1 A B others) "/h/rc" = true := by
    simp [existsFS, hfile1]
  have hex2 : existsFS (c6fs2 A B others) "/h/rc" = true := by
    simp [existsFS, hfile2]
  have hcont1 : contentOf (c6fs1 A B others) "/h/rc" =
      some (A ++ "source /h/rc" :: B) := by
    simp [contentOf, c6fs1, List.find?_cons]
  have hcont2 : contentOf (c6fs2 A B others) "/h/rc" = some (A ++ B) := by
    simp [contentOf, c6fs2, List.find?_cons]
  have hres1 : resolveSource (c6fs1 A B others) env (parentStr "/h/rc")
      (pyStrip "/h/rc") = ["/h/rc"] := by
    simp only [resolveSource]
    rw [if_neg (by decide : ¬hasGlobChar (pyStrip "/h/rc") = true)]
    rw [show expand_path env (pyStrip "/h/rc") (parentStr "/h/rc") = "/h/rc" from rfl]
    rw [if_pos hex1]
  have hdir1 : isDirFS (c6fs1 A B others) "/h/rc" = false := rfl
  have hexpand1 : expandSrc (c6fs1 A B others) "/h/rc" = ["/h/rc"] := by
    simp only [expandSrc]
    rw [if_neg (by simp [hdir1]), if_pos hex1]
  have hp1 : parse_aliases_from_file (c6fs1 A B others) env "/h/rc" =
      ((parseAux (c6fs1 A B others) env "/h/rc" (parentStr "/h/rc") 1 none
          (A ++ "source /h/rc" :: B)).aliases,
        (parseAux (c6fs1 A B others) env "/h/rc" (parentStr "/h/rc") 1 none
          (A ++ "source /h/rc" :: B)).sources) := by
    unfold parse_aliases_from_file
    rw [if_pos ⟨hex1, hfile1⟩, hcont1]
  have hp2 : parse_aliases_from_file (c6fs2 A B others) env "/h/rc" =
      ((parseAux (c6fs2 A B others) env "/h/rc" (parentStr "/h/rc") 1 none
          (A ++ B)).aliases,
        (parseAux (c6fs2 A B others) env "/h/rc" (parentStr "/h/rc") 1 none
          (A ++ B)).sources) := by
    unfold parse_aliases_from_file
    rw [if_pos ⟨hex2, hfile2⟩, hcont2]
  have hmid := parseAux_mid_source (c6fs1 A B others) (c6fs2 A B others) env
    "/h/rc" (parentStr "/h/rc") A B "source /h/rc" "/h/rc" rfl hA hB 1 none
  have hsrc1 : (parse_aliases_from_file (c6fs1 A B others) env "/h/rc").2 =
      ["/h/rc"] := by
    rw [hp1]
    exact hmid.2.1.trans hres1
  have hsrc2 : (parse_aliases_from_file (c6fs2 A B others) env "/h/rc").2 = [] := by
    rw [hp2]
    exact hmid.2.2
  have halias : (parse_aliases_from_file (c6fs1 A B others) env "/h/rc").1.map
        stripLine =
      (parse_aliases_from_file (c6fs2 A B others) env "/h/rc").1.map stripLine := by
    rw [hp1, hp2]
    exact hmid.1
  have hrun1 : collectLoop (c6fs1 A B others) env [] [] [] ["/h/rc"] =
      ((parse_aliases_from_file (c6fs1 A B others) env "/h/rc").1.foldl dInsert [],
        ["/h/rc"]) := by
    rw [collectLoop, dif_neg (by simp), hsrc1]
    simp only [List.flatMap_cons, List.flatMap_nil, List.append_nil,
      List.nil_append]
    rw [hexpand1]
    rw [collectLoop, dif_pos (List.mem_cons_self _ _)]
    rw [collectLoop]
  have hrun2 : collectLoop (c6fs2 A B others) env [] [] [] ["/h/rc"] =
      ((parse_aliases_from_file (c6fs2 A B others) env "/h/rc").1.foldl dInsert [],
        ["/h/rc"]) := by
    rw [collectLoop, dif_neg (by simp), hsrc2]
    simp only [List.flatMap_nil, List.append_nil, List.nil_append]
    rw [collectLoop]
  rw [collect_aliases, collect_aliases, hrun1, hrun2,
    ← stableSortBy_stripLine, ← stableSortBy_stripLine]
  congr 1
  show ((parse_aliases_from_file (c6fs1 A B others) env "/h/rc").1.foldl
      dInsert []).map stripLine =
    ((parse_aliases_from_file (c6fs2 A B others) env "/h/rc").1.foldl
      dInsert []).map stripLine
  rw [foldl_dInsert_stripLine, foldl_dInsert_stripLine, halias]

set_option maxHeartbeats 2000000 in
theorem c6_family2 (env : Env) (RA RB C D : List String)
    (others : List (String × List String))
    (hR : ∀ l ∈ RA ++ RB, matchSource l = none)
    (hCD : ∀ l ∈ C ++ D, matchSource l = none) :
    (collect_aliases (c6fs3 RA RB C D others) env "/h/rc").map stripLine =
      (collect_aliases (c6fs4 RA RB C D others) env "/h/rc").map stripLine := by
  have hRA : ∀ l ∈ RA, matchSource l = none :=
    fun l hl => hR l (List.mem_append_left _ hl)
  have hRB : ∀ l ∈ RB, matchSource l = none :=
    fun l hl => hR l (List.mem_append_right _ hl)
  have hC : ∀ l ∈ C, matchSource l = none :=
    fun l hl => hCD l (List.mem_append_left _ hl)
  have hD : ∀ l ∈ D, matchSource l = none :=
    fun l hl => hCD l (List.mem_append_right _ hl)
  have hfile3r : isFileFS (c6fs3 RA RB C D others) "/h/rc" = true := by
    simp [isFileFS, c6fs3]
  have hfile3b : isFileFS (c6fs3 RA RB C D others) "/h/b.zsh" = true := by
    unfold isFileFS c6fs3
    rw [List.map_cons, List.map_cons, List.contains_cons, List.contains_cons]
    rw [show ((canon "/h/b.zsh" : String) == canon "/h/rc") = false from by decide]
    simp
  have hfile4r : isFileFS (c6fs4 RA RB C D others) "/h/rc" = true := by
    simp [isFileFS, c6fs4]
  have hfile4b : isFileFS (c6fs4 RA RB C D others) "/h/b.zsh" = true := by
    unfold isFileFS c6fs4
    rw [List.map_cons, List.map_cons, List.contains_cons, List.contains_cons]
    rw [show ((canon "/h/b.zsh" : String) == canon "/h/rc") = false from by decide]
    simp
  have hex3r : existsFS (c6fs3 RA RB C D others) "/h/rc" = true := by
    simp [existsFS, hfile3r]
  have hex3b : existsFS (c6fs3 RA RB C D others) "/h/b.zsh" = true := by
    simp [existsFS, hfile3b]
  have hex4r : existsFS (c6fs4 RA RB C D others) "/h/rc" = true := by
    simp [existsFS, hfile4r]
  have hex4b : existsFS (c6fs4 RA RB C D others) "/h/b.zsh" = true := by
    simp [existsFS, hfile4b]
  have hcont3r : contentOf (c6fs3 RA RB C D others) "/h/rc" =
      some (RA ++ "source /h/b.zsh" :: RB) := by
    simp [contentOf, c6fs3, List.find?_cons]
  have hcont3b : contentOf (c6fs3 RA RB C D others) "/h/b.zsh" =
      some (C ++ "source /h/rc" :: D) := by
    simp [contentOf, c6fs3, List.find?_cons,
      show ((canon "/h/rc" : String) == canon "/h/b.zsh") = false from by decide]
  have hcont4r : contentOf (c6fs4 RA RB C D others) "/h/rc" =
      some (RA ++ "source /h/b.zsh" :: RB) := by
    simp [contentOf, c6fs4, List.find?_cons]
  have hcont4b : contentOf (c6fs4 RA RB C D others) "/h/b.zsh" =
      some (C ++ D) := by
    simp [contentOf, c6fs4, List.find?_cons,
      show ((canon "/h/rc" : String) == canon "/h/b.zsh") = false from by decide]
  have hres3b : resolveSource (c6fs3 RA RB C D others) env (parentStr "/h/rc")
      (pyStrip "/h/b.zsh") = ["/h/b.zsh"] := by
    simp only [resolveSource]
    rw [if_neg (by decide : ¬hasGlobChar (pyStrip "/h/b.zsh") = true)]
    rw [show expand_path env (pyStrip "/h/b.zsh") (parentStr "/h/rc") =
        "/h/b.zsh" from rfl]
    rw [if_pos hex3b]
  have hres4b : resolveSource (c6fs4 RA RB C D others) env (parentStr "/h/rc")
      (pyStrip "/h/b.zsh") = ["/h/b.zsh"] := by
    simp only [resolveSource]
    rw [if_neg (by decide : ¬hasGlobChar (pyStrip "/h/b.zsh") = true)]
    rw [show expand_path env (pyStrip "/h/b.zsh") (parentStr "/h/rc") =
        "/h/b.zsh" from rfl]
    rw [if_pos hex4b]
  have hres3r : resolveSource (c6fs3 RA RB C D others) env (parentStr "/h/b.zsh")
      (pyStrip "/h/rc") = ["/h/rc"] := by
    simp only [resolveSource]
    rw [if_neg (by decide : ¬hasGlobChar (pyStrip "/h/rc") = true)]
    rw [show expand_path env (pyStrip "/h/rc") (parentStr "/h/b.zsh") =
        "/h/rc" from rfl]
    rw [if_pos hex3r]
  have hdir3b : isDirFS (c6fs3 RA RB C D others) "/h/b.zsh" = false := rfl
  have hdir3r : isDirFS (c6fs3 RA RB C D others) "/h/rc" = false := rfl
  have hdir4b : isDirFS (c6fs4 RA RB C D others) "/h/b.zsh" = false := rfl
  have hexpand3b : expandSrc (c6fs3 RA RB C D others) "/h/b.zsh" =
      ["/h/b.zsh"] := by
    simp only [expandSrc]
    rw [if_neg (by simp [hdir3b]), if_pos hex3b]
  have hexpand3r : expandSrc (c6fs3 RA RB C D others) "/h/rc" = ["/h/rc"] := by
    simp only [expandSrc]
    rw [if_neg (by simp [hdir3r]), if_pos hex3r]
  have hexpand4b : expandSrc (c6fs4 RA RB C D others) "/h/b.zsh" =
      ["/h/b.zsh"] := by
    simp only [expandSrc]
    rw [if_neg (by simp [hdir4b]), if_pos hex4b]
  have hp3r : parse_aliases_from_file (c6fs3 RA RB C D others) env "/h/rc" =
      ((parseAux (c6fs3 RA RB C D others) env "/h/rc" (parentStr "/h/rc") 1 none
          (RA ++ "source /h/b.zsh" :: RB)).aliases,
        (parseAux (c6fs3 RA RB C D others) env "/h/rc" (parentStr "/h/rc") 1 none
          (RA ++ "source /h/b.zsh" :: RB)).sources) := by
    unfold parse_aliases_from_file
    rw [if_pos ⟨hex3r, hfile3r⟩, hcont3r]
  have hp3b : parse_aliases_from_file (c6fs3 RA RB C D others) env "/h/b.zsh" =
      ((parseAux (c6fs3 RA RB C D others) env "/h/b.zsh" (parentStr "/h/b.zsh")
          1 none (C ++ "source /h/rc" :: D)).aliases,
        (parseAux (c6fs3 RA RB C D others) env "/h/b.zsh" (parentStr "/h/b.zsh")
          1 none (C ++ "source /h/rc" :: D)).sources) := by
    unfold parse_aliases_from_file
    rw [if_pos ⟨hex3b, hfile3b⟩, hcont3b]
  have hp4r : parse_aliases_from_file (c6fs4 RA RB C D others) env "/h/rc" =
      ((parseAux (c6fs4 RA RB C D others) env "/h/rc" (parentStr "/h/rc") 1 none
          (RA ++ "source /h/b.zsh" :: RB)).aliases,
        (parseAux (c6fs4 RA RB C D others) env "/h/rc" (parentStr "/h/rc") 1 none
          (RA ++ "source /h/b.zsh" :: RB)).sources) := by
    unfold parse_aliases_from_file
    rw [if_pos ⟨hex4r, hfile4r⟩, hcont4r]
  have hp4b : parse_aliases_from_file (c6fs4 RA RB C D others) env "/h/b.zsh" =
      ((parseAux (c6fs4 RA RB C D others) env "/h/b.zsh" (parentStr "/h/b.zsh")
          1 none (C ++ D)).aliases,
        (parseAux (c6fs4 RA RB C D others) env "/h/b.zsh" (parentStr "/h/b.zsh")
          1 none (C ++ D)).sources) := by
    unfold parse_aliases_from_file
    rw [if_pos ⟨hex4b, hfile4b⟩, hcont4b]
  have hmidr := parseAux_mid_source (c6fs3 RA RB C D others)
    (c6fs3 RA RB C D others) env "/h/rc" (parentStr "/h/rc") RA RB
    "source /h/b.zsh" "/h/b.zsh" rfl hRA hRB 1 none
  have hmidr4 := parseAux_mid_source (c6fs4 RA RB C D others)
    (c6fs4 RA RB C D others) env "/h/rc" (parentStr "/h/rc") RA RB
    "source /h/b.zsh" "/h/b.zsh" rfl hRA hRB 1 none
  have hmidb := parseAux_mid_source (c6fs3 RA RB C D others)
    (c6fs4 RA RB C D others) env "/h/b.zsh" (parentStr "/h/b.zsh") C D
    "source /h/rc" "/h/rc" rfl hC hD 1 none
  have hsrc3r : (parse_aliases_from_file (c6fs3 RA RB C D others) env
      "/h/rc").2 = ["/h/b.zsh"] := by
    rw [hp3r]
    exact hmidr.2.1.trans hres3b
  have hsrc4r : (parse_aliases_from_file (c6fs4 RA RB C D others) env
      "/h/rc").2 = ["/h/b.zsh"] := by
    rw [hp4r]
    exact hmidr4.2.1.trans hres4b
  have hsrc3b : (parse_aliases_from_file (c6fs3 RA RB C D others) env
      "/h/b.zsh").2 = ["/h/rc"] := by
    rw [hp3b]
    exact hmidb.2.1.trans hres3r
  have hsrc4b : (parse_aliases_from_file (c6fs4 RA RB C D others) env
      "/h/b.zsh").2 = [] := by
    rw [hp4b]
    exact hmidb.2.2
  have halias_root : (parse_aliases_from_file (c6fs3 RA RB C D others) env
      "/h/rc").1 = (parse_aliases_from_file (c6fs4 RA RB C D others) env
      "/h/rc").1 := by
    rw [hp3r, hp4r]
    exact (parseAux_fs_free (c6fs3 RA RB C D others) (c6fs4 RA RB C D others)
      env "/h/rc" (parentStr "/h/rc") (RA ++ "source /h/b.zsh" :: RB) 1 none).1
  have halias_b : (parse_aliases_from_file (c6fs3 RA RB C D others) env
        "/h/b.zsh").1.map stripLine =
      (parse_aliases_from_file (c6fs4 RA RB C D others) env
        "/h/b.zsh").1.map stripLine := by
    rw [hp3b, hp4b]
    exact hmidb.1
  have hrun3 : collectLoop (c6fs3 RA RB C D others) env [] [] [] ["/h/rc"] =
      ((parse_aliases_from_file (c6fs3 RA RB C D others) env "/h/b.zsh").1.foldl
          dInsert
          ((parse_aliases_from_file (c6fs3 RA RB C D others) env
            "/h/rc").1.foldl dInsert []),
        ["/h/rc", "/h/b.zsh"]) := by
    rw [collectLoop, dif_neg (by simp), hsrc3r]
    simp only [List.flatMap_cons, List.flatMap_nil, List.append_nil,
      List.nil_append]
    rw [hexpand3b]
    rw [collectLoop, dif_neg (by decide), hsrc3b]
    simp only [List.flatMap_cons, List.flatMap_nil, List.append_nil,
      List.nil_append]
    rw [hexpand3r]
    rw [collectLoop, dif_pos (by decide : "/h/rc" ∈ ["/h/b.zsh", "/h/rc"])]
    rw [collectLoop]
    rfl
  have hrun4 : collectLoop (c6fs4 RA RB C D others) env [] [] [] ["/h/rc"] =
      ((parse_aliases_from_file (c6fs4 RA RB C D others) env "/h/b.zsh").1.foldl
          dInsert
          ((parse_aliases_from_file (c6fs4 RA RB C D others) env
            "/h/rc").1.foldl dInsert []),
        ["/h/rc", "/h/b.zsh"]) := by
    rw [collectLoop, dif_neg (by simp), hsrc4r]
    simp only [List.flatMap_cons, List.flatMap_nil, List.append_nil,
      List.nil_append]
    rw [hexpand4b]
    rw [collectLoop, dif_neg (by decide), hsrc4b]
    simp only [List.flatMap_nil, List.append_nil, List.nil_append]
    rw [collectLoop]
    rfl
  rw [collect_aliases, collect_aliases, hrun3, hrun4,
    ← stableSortBy_stripLine, ← stableSortBy_stripLine]
  congr 1
  show ((parse_aliases_from_file (c6fs3 RA RB C D others) env
        "/h/b.zsh").1.foldl dInsert
      ((parse_aliases_from_file (c6fs3 RA RB C D others) env "/h/rc").1.foldl
        dInsert [])).map stripLine =
    ((parse_aliases_from_file (c6fs4 RA RB C D others) env
        "/h/b.zsh").1.foldl dInsert
      ((parse_aliases_from_file (c6fs4 RA RB C D others) env "/h/rc").1.foldl
        dInsert [])).map stripLine
  rw [halias_root]
  simp only [foldl_dInsert_stripLine, List.map_nil]
  rw [halias_b]

/-- A root that sources itself before its only alias definition. -/
def c6cycFS : FS := ⟨[("/h/rc", ["source /h/rc", "alias a='1'"])], ["/h"]⟩

/-- The acyclic variant of `c6cycFS` with the self-include removed. -/
def c6acycFS : FS := ⟨[("/h/rc", ["alias a='1'"])], ["/h"]⟩

/-- Claim C6 counterexample: the traversal does terminate on a root that
includes itself, but the record set is NOT literally the same as for the
acyclic variant with the include removed — deleting the include line
shifts the alias from line 2 to line 1, so the recorded line numbers
differ. -/
theorem claim_C6_counterexample :
    collect_aliases c6cycFS plainEnv "/h/rc" =
      [⟨"a", "1", "", "/h/rc", 2⟩] ∧
    collect_aliases c6acycFS plainEnv "/h/rc" =
      [⟨"a", "1", "", "/h/rc", 1⟩] ∧
    collect_aliases c6cycFS plainEnv "/h/rc" ≠
      collect_aliases c6acycFS plainEnv "/h/rc" := by
  have h1 := collectLoopFuel_sound c6cycFS plainEnv 5 [] [] [] ["/h/rc"]
    ([⟨"a", "1", "", "/h/rc", 2⟩], ["/h/rc"]) (by decide)
  have h2 := collectLoopFuel_sound c6acycFS plainEnv 5 [] [] [] ["/h/rc"]
    ([⟨"a", "1", "", "/h/rc", 1⟩], ["/h/rc"]) (by decide)
  refine ⟨?_, ?_, ?_⟩
  · rw [collect_aliases, h1]
    decide
  · rw [collect_aliases, h2]
    decide
  · rw [collect_aliases, collect_aliases, h1, h2]
    decide

/-- Claim C6 (corrected): for a root that includes itself among otherwise
include-free lines, and for a two-file cycle in which the root includes a
second file that includes the root back, the traversal terminates
(`collect_aliases` is a total function) and produces the same record set
as the acyclic variant with the duplicate include line removed, up to the
recorded line numbers: removing the include line shifts later records'
line numbers, so the sets agree after erasing the `line` field
(`stripLine`) — names, bodies, notes, source files, membership and order
all coincide.  `others` is an arbitrary remainder of the file system and
`env` an arbitrary environment. -/
theorem claim_C6 :
    (∀ (env : Env) (A B : List String) (others : List (String × List String)),
      (∀ l ∈ A ++ B, matchSource l = none) →
      (collect_aliases (c6fs1 A B others) env "/h/rc").map stripLine =
        (collect_aliases (c6fs2 A B others) env "/h/rc").map stripLine) ∧
    (∀ (env : Env) (RA RB C D : List String)
        (others : List (String × List String)),
      (∀ l ∈ RA ++ RB, matchSource l = none) →
      (∀ l ∈ C ++ D, matchSource l = none) →
      (collect_aliases (c6fs3 RA RB C D others) env "/h/rc").map stripLine =
        (collect_aliases (c6fs4 RA RB C D others) env "/h/rc").map stripLine) :=
  ⟨c6_family1, c6_family2⟩

/-- Claim C6 witness: both cycle families instantiated on concrete file
systems, with the include-freeness side conditions discharged by
computation. -/
theorem claim_C6_witness :
    ((collect_aliases (c6fs1 ["alias a='1'"] [] []) plainEnv "/h/rc").map
        stripLine =
      (collect_aliases (c6fs2 ["alias a='1'"] [] []) plainEnv "/h/rc").map
        stripLine) ∧
    ((collect_aliases (c6fs3 [] [] ["alias b='2'"] [] []) plainEnv
        "/h/rc").map stripLine =
      (collect_aliases (c6fs4 [] [] ["alias b='2'"] [] []) plainEnv
        "/h/rc").map stripLine) :=
  ⟨claim_C6.1 plainEnv ["alias a='1'"] [] [] (by decide),
    claim_C6.2 plainEnv [] [] ["alias b='2'"] [] [] (by decide) (by decide)⟩
